import Mathlib

/-!
Shallow embedding of the Pakkuu/Order-Book matching engine
(src/include/Order.hpp, src/include/PriceLevel.hpp, src/include/OrderBook.hpp,
src/src/PriceLevel.cpp, src/src/OrderBook.cpp) and proofs about it.

Modelling choices, stated once:
* Machine integers: Order::Price is int64_t, modelled as Int; Order::Quantity
  and Order::OrderId are uint64_t, modelled as Nat.  PriceLevel::total_volume_
  is a uint64_t accumulator that can genuinely wrap, so its updates are taken
  mod 2^64 (u64add, u64sub below).  Order::reduce_quantity is only ever called
  with an argument bounded by the remaining quantity (the argument is a min of
  the two remainders), so plain Nat subtraction is exact there.
* The heap: order records are owned by OrderBook::order_map_ via unique_ptr,
  and price levels hold raw pointers into them.  We model the heap as an
  association list from tokens (allocation numbers) to order records; levels
  hold lists of tokens and the id index maps ids to tokens.  Records are never
  deleted from the modelled heap: freeing memory has no observable effect in
  a run without undefined behaviour, and keeping the record makes every
  function total.
* std::map ladders are sorted association lists (bids descending, asks
  ascending); begin() is the list head.  std::unordered_map is an association
  list; iteration order is never observed, only lookup, insert, erase, size.
* Clocks: every now() call is modelled by reading a Clock stream at a cursor;
  order construction reads one value, and each trade emission reads one value.
  The Metrics object is modelled by the three sample counters (how many times
  record_add, record_cancel, record_match were called); the latency values
  themselves are durations and are not otherwise observable in the claims.
-/

/-- Side from Order.hpp. -/
inductive Side where
  | BUY
  | SELL
deriving DecidableEq, Repr

/-- OrderType from Order.hpp. -/
inductive OrderType where
  | LIMIT
  | MARKET
deriving DecidableEq, Repr

/-- Order record from Order.hpp.  The intrusive next_ and prev_ pointers are
represented by the position of the order's token inside its level's queue
list, so they are not separate fields here. -/
structure OrderRec where
  id : Nat
  side : Side
  typ : OrderType
  price : Int
  quantity : Nat
  remaining_quantity : Nat
  timestamp : Nat
deriving DecidableEq, Repr

/-- Order::is_filled. -/
def OrderRec.is_filled (o : OrderRec) : Prop := o.remaining_quantity = 0

instance (o : OrderRec) : Decidable o.is_filled := by
  unfold OrderRec.is_filled; infer_instance

/-- Order::reduce_quantity.  Call sites always pass qty at most the remaining
quantity, so Nat subtraction agrees with the uint64 subtraction. -/
def OrderRec.reduce_quantity (o : OrderRec) (qty : Nat) : OrderRec :=
  { o with remaining_quantity := o.remaining_quantity - qty }

/-- The uint64 modulus. -/
def U64 : Nat := 2 ^ 64

/-- uint64 addition with wrap-around. -/
def u64add (a b : Nat) : Nat := (a + b) % U64

/-- uint64 subtraction with wrap-around. -/
def u64sub (a b : Nat) : Nat := (a + (U64 - b % U64)) % U64

/-- PriceLevel from PriceLevel.hpp: the doubly linked queue (head_ to tail_)
is a list of heap tokens, oldest first, plus the cached aggregates. -/
structure PriceLevel where
  queue : List Nat
  total_volume : Nat
  order_count : Nat
deriving DecidableEq, Repr

/-- A freshly constructed PriceLevel. -/
def PriceLevel.empty : PriceLevel := ⟨[], 0, 0⟩

/-- PriceLevel::add_order: append to the tail, add the order's current
remaining quantity to total_volume_, bump order_count_. -/
def PriceLevel.add_order (L : PriceLevel) (tok : Nat) (rem : Nat) : PriceLevel :=
  ⟨L.queue ++ [tok], u64add L.total_volume rem, L.order_count + 1⟩

/-- Unlink the first occurrence of a token from a queue (pointer splicing in
PriceLevel::remove_order; a node occurs at most once in its list). -/
def removeTok : List Nat → Nat → List Nat
  | [], _ => []
  | t :: r, x => if t = x then r else t :: removeTok r x

/-- PriceLevel::remove_order: unlink the node, subtract the order's current
remaining quantity from total_volume_, decrement order_count_. -/
def PriceLevel.remove_order (L : PriceLevel) (tok : Nat) (rem : Nat) : PriceLevel :=
  ⟨removeTok L.queue tok, u64sub L.total_volume rem, L.order_count - 1⟩

/-- Trade from OrderBook.hpp. -/
structure Trade where
  buy_order_id : Nat
  sell_order_id : Nat
  price : Int
  quantity : Nat
  timestamp : Nat
deriving DecidableEq, Repr

/-- The heap of order records, keyed by allocation token. -/
abbrev Store := List (Nat × OrderRec)

/-- The id index order_map_, mapping order id to owning token. -/
abbrev OMap := List (Nat × Nat)

/-- One side of the book: a price-sorted association list of levels. -/
abbrev Ladder := List (Int × PriceLevel)

/-- A clock stream: the value returned by the n-th now() call. -/
abbrev Clock := Nat → Nat

/-- Association list lookup (std::map::find / std::unordered_map::find). -/
def alookup {α : Type} : List (Nat × α) → Nat → Option α
  | [], _ => none
  | e :: r, k => if e.1 = k then some e.2 else alookup r k

/-- Association list insert-or-assign (operator[] followed by assignment). -/
def aset {α : Type} : List (Nat × α) → Nat → α → List (Nat × α)
  | [], k, v => [(k, v)]
  | e :: r, k, v => if e.1 = k then (k, v) :: r else e :: aset r k v

/-- Association list erase.  Every binding of the key is removed; maps built
by aset and aerase never hold a key twice, so this agrees with erase on
std::unordered_map. -/
def aerase {α : Type} (m : List (Nat × α)) (k : Nat) : List (Nat × α) :=
  m.filter (fun e => decide (e.1 ≠ k))

/-- The record a token points at (heap dereference).  Total by default value;
every token stored in a queue or in the id index is live in the store. -/
def order0 : OrderRec := ⟨0, Side.BUY, OrderType.LIMIT, 0, 0, 0, 0⟩

def tokRec (st : Store) (tok : Nat) : OrderRec := (alookup st tok).getD order0

/-- Whether a token is live in the store. -/
def tokLive (st : Store) (tok : Nat) : Prop := (alookup st tok).isSome = true

instance (st : Store) (tok : Nat) : Decidable (tokLive st tok) := by
  unfold tokLive; infer_instance

/-- Look up the level stored at a price (std::map::find on a ladder). -/
def findLevel : Ladder → Int → Option PriceLevel
  | [], _ => none
  | (q, L) :: r, p => if q = p then some L else findLevel r p

/-- Erase the level stored at a price (std::map::erase; prices are unique in
a ladder). -/
def eraseLevel : Ladder → Int → Ladder
  | [], _ => []
  | (q, L) :: r, p => if q = p then r else (q, L) :: eraseLevel r p

/-- Replace the level stored at a price. -/
def replaceLevel : Ladder → Int → PriceLevel → Ladder
  | [], _, _ => []
  | (q, L) :: r, p, L' => if q = p then (p, L') :: r else (q, L) :: replaceLevel r p L'

/-- Sorted insert-or-update, modelling operator[] on the std::map ladders:
cmp says that the first price is strictly ordered before the second one in
this ladder's iteration order. -/
def upsertLevel (cmp : Int → Int → Bool) (p : Int) (f : PriceLevel → PriceLevel) :
    Ladder → Ladder
  | [] => [(p, f PriceLevel.empty)]
  | (q, L) :: r =>
    if q = p then (q, f L) :: r
    else if cmp p q then (p, f PriceLevel.empty) :: (q, L) :: r
    else (q, L) :: upsertLevel cmp p f r

/-- Bid ladder comparator: std::greater, highest price first. -/
def cmpBid (a b : Int) : Bool := decide (b < a)

/-- Ask ladder comparator: std::less, lowest price first. -/
def cmpAsk (a b : Int) : Bool := decide (a < b)

/-- The engine state: the two ladders, the heap, the id index, and the counts
of metrics samples delivered so far (record_add, record_cancel,
record_match). -/
structure OrderBook where
  next_tok : Nat
  store : Store
  bids : Ladder
  asks : Ladder
  order_map : OMap
  m_adds : Nat
  m_cancels : Nat
  m_matches : Nat
deriving DecidableEq, Repr

/-- A newly constructed OrderBook. -/
def book0 : OrderBook := ⟨0, [], [], [], [], 0, 0, 0⟩

/-- The break test of the matching loop: for a non-market incoming order,
matching at a level stops when the prices no longer cross
(OrderBook.cpp lines 91-94 and 130-133). -/
def crossStop (sd : Side) (ip p : Int) : Prop :=
  (sd = Side.BUY ∧ ip < p) ∨ (sd = Side.SELL ∧ p < ip)

instance (sd : Side) (ip p : Int) : Decidable (crossStop sd ip p) := by
  unfold crossStop; infer_instance

/-- execute_trade: the buy and sell ids are taken from the two orders by
side; for a BUY incoming the call is execute_trade(incoming, resting), for a
SELL incoming it is execute_trade(resting, incoming). -/
def mkTrade (sd : Side) (inc rest : OrderRec) (p : Int) (q ts : Nat) : Trade :=
  match sd with
  | Side.BUY => ⟨inc.id, rest.id, p, q, ts⟩
  | Side.SELL => ⟨rest.id, inc.id, p, q, ts⟩

/-- Result of sweeping one price level (the inner while loop of
match_order). -/
structure QRes where
  inc : OrderRec
  q : List Nat
  tv : Nat
  cnt : Nat
  st : Store
  om : OMap
  trades : List Trade
  n : Nat
deriving Repr

/-- The inner loop of OrderBook::match_order (lines 97-116 / 136-155): match
the incoming order against the level queue front to back.  Each iteration
trades min of the remainders at the resting order's price; a fully consumed
resting order is unlinked (remove_order, which subtracts its now-zero
remaining from total_volume_) and erased from the id index.  The none branch
of the heap lookup is unreachable: records are never removed from the
modelled heap; it skips the node. -/
def matchQueue (sd : Side) (inc : OrderRec) (q : List Nat) (tv cnt : Nat)
    (st : Store) (om : OMap) (tsf : Clock) (n : Nat) : QRes :=
  match q with
  | [] => ⟨inc, [], tv, cnt, st, om, [], n⟩
  | tok :: rest =>
    if inc.remaining_quantity = 0 then ⟨inc, tok :: rest, tv, cnt, st, om, [], n⟩
    else
      match alookup st tok with
      | none => matchQueue sd inc rest tv cnt st om tsf n
      | some r0 =>
        let tq := min inc.remaining_quantity r0.remaining_quantity
        let tr := mkTrade sd inc r0 r0.price tq (tsf n)
        let inc' := inc.reduce_quantity tq
        let r' := r0.reduce_quantity tq
        let st' := aset st tok r'
        if r'.remaining_quantity = 0 then
          let res := matchQueue sd inc' rest (u64sub tv r'.remaining_quantity)
            (cnt - 1) st' (aerase om r0.id) tsf (n + 1)
          { res with trades := tr :: res.trades }
        else
          ⟨inc', tok :: rest, tv, cnt, st', om, [tr], n + 1⟩

/-- Result of sweeping a ladder (the outer while loop of match_order). -/
structure LRes where
  inc : OrderRec
  ladder : Ladder
  st : Store
  om : OMap
  trades : List Trade
  n : Nat
deriving Repr

/-- The outer loop of OrderBook::match_order (lines 85-121 / 124-160): take
the best level, stop if a non-market incoming order no longer crosses it,
otherwise sweep it and erase it from the ladder if it ends up empty. -/
def matchLadder (sd : Side) (inc : OrderRec) (ladder : Ladder) (st : Store)
    (om : OMap) (tsf : Clock) (n : Nat) : LRes :=
  match ladder with
  | [] => ⟨inc, [], st, om, [], n⟩
  | (p, L) :: rest =>
    if inc.remaining_quantity = 0 then ⟨inc, (p, L) :: rest, st, om, [], n⟩
    else if inc.typ ≠ OrderType.MARKET ∧ crossStop sd inc.price p then
      ⟨inc, (p, L) :: rest, st, om, [], n⟩
    else
      let r := matchQueue sd inc L.queue L.total_volume L.order_count st om tsf n
      if r.q = [] then
        let r2 := matchLadder sd r.inc rest r.st r.om tsf r.n
        ⟨r2.inc, r2.ladder, r2.st, r2.om, r.trades ++ r2.trades, r2.n⟩
      else
        ⟨r.inc, (p, ⟨r.q, r.tv, r.cnt⟩) :: rest, r.st, r.om, r.trades, r.n⟩

/-- OrderBook::match_order.  A BUY incoming order sweeps the ask ladder, a
SELL incoming order sweeps the bid ladder; record_match is reported when any
quantity was filled.  The incoming record is returned separately: its heap
cell is not read through the book during the sweep (its token is in no
queue), and the callers write it back. -/
def match_order (b : OrderBook) (inc : OrderRec) (tsf : Clock) (n : Nat) :
    OrderRec × OrderBook × List Trade × Nat :=
  if inc.remaining_quantity = 0 then (inc, b, [], n)
  else
    match inc.side with
    | Side.BUY =>
      let r := matchLadder Side.BUY inc b.asks b.store b.order_map tsf n
      let b' := { b with asks := r.ladder, store := r.st, order_map := r.om }
      let b'' := if r.inc.remaining_quantity < r.inc.quantity then
          { b' with m_matches := b'.m_matches + 1 } else b'
      (r.inc, b'', r.trades, r.n)
    | Side.SELL =>
      let r := matchLadder Side.SELL inc b.bids b.store b.order_map tsf n
      let b' := { b with bids := r.ladder, store := r.st, order_map := r.om }
      let b'' := if r.inc.remaining_quantity < r.inc.quantity then
          { b' with m_matches := b'.m_matches + 1 } else b'
      (r.inc, b'', r.trades, r.n)

/-- Result of add_limit_order. -/
structure LimRes where
  ok : Bool
  book : OrderBook
  trades : List Trade
  n : Nat
deriving Repr

/-- OrderBook::add_limit_order (OrderBook.cpp lines 7-36).  The record is
allocated, registered in the id index (silently replacing any previous
binding of the id), matched, and then either dropped (fully filled, returns
false) or appended to its side's level at its limit price (returns true).
record_add is reported on both paths.  ts is the construction timestamp and
tsf the emission clock. -/
def add_limit_order (b : OrderBook) (id : Nat) (sd : Side) (price : Int)
    (qty : Nat) (ts : Nat) (tsf : Clock) (n : Nat) : LimRes :=
  let tok := b.next_tok
  let o : OrderRec := ⟨id, sd, OrderType.LIMIT, price, qty, qty, ts⟩
  let b1 : OrderBook := { b with
    next_tok := tok + 1
    store := aset b.store tok o
    order_map := aset b.order_map id tok }
  let m := match_order b1 o tsf n
  let o' := m.1
  let b2 := { m.2.1 with store := aset m.2.1.store tok o' }
  if o'.remaining_quantity = 0 then
    ⟨false, { b2 with order_map := aerase b2.order_map id, m_adds := b2.m_adds + 1 },
      m.2.2.1, m.2.2.2⟩
  else
    let b3 := match sd with
      | Side.BUY => { b2 with
          bids := upsertLevel cmpBid price (fun L => L.add_order tok o'.remaining_quantity) b2.bids }
      | Side.SELL => { b2 with
          asks := upsertLevel cmpAsk price (fun L => L.add_order tok o'.remaining_quantity) b2.asks }
    ⟨true, { b3 with m_adds := b3.m_adds + 1 }, m.2.2.1, m.2.2.2⟩

/-- Result of add_market_order. -/
structure MktRes where
  filled : Nat
  book : OrderBook
  trades : List Trade
  n : Nat
deriving Repr

/-- OrderBook::add_market_order (OrderBook.cpp lines 38-58).  The record is
allocated with price 0, registered, matched, and always erased from the id
index; the return value is the filled quantity. -/
def add_market_order (b : OrderBook) (id : Nat) (sd : Side) (qty : Nat)
    (ts : Nat) (tsf : Clock) (n : Nat) : MktRes :=
  let tok := b.next_tok
  let o : OrderRec := ⟨id, sd, OrderType.MARKET, 0, qty, qty, ts⟩
  let b1 : OrderBook := { b with
    next_tok := tok + 1
    store := aset b.store tok o
    order_map := aset b.order_map id tok }
  let m := match_order b1 o tsf n
  let o' := m.1
  let b2 := { m.2.1 with store := aset m.2.1.store tok o' }
  ⟨qty - o'.remaining_quantity,
    { b2 with order_map := aerase b2.order_map id, m_adds := b2.m_adds + 1 },
    m.2.2.1, m.2.2.2⟩

/-- OrderBook::remove_order_internal (OrderBook.cpp lines 187-217): unlink
the order from the level at its price on its side (if such a level exists),
erase the level if it became empty, and erase the order's id from the id
index. -/
def remove_order_internal (b : OrderBook) (tok : Nat) (r : OrderRec) : OrderBook :=
  let upd : Ladder → Ladder := fun ladder =>
    match findLevel ladder r.price with
    | none => ladder
    | some L =>
      let L' := L.remove_order tok r.remaining_quantity
      if L'.queue = [] then eraseLevel ladder r.price else replaceLevel ladder r.price L'
  match r.side with
  | Side.BUY => { b with bids := upd b.bids, order_map := aerase b.order_map r.id }
  | Side.SELL => { b with asks := upd b.asks, order_map := aerase b.order_map r.id }

/-- Result of cancel_order. -/
structure CanRes where
  ok : Bool
  book : OrderBook
deriving Repr

/-- OrderBook::cancel_order (OrderBook.cpp lines 60-73).  An unknown id
returns false before reaching the record_cancel call, so no cancel sample is
reported on that path.  The store lookup cannot fail for a token held by the
id index; the none branch is unreachable. -/
def cancel_order (b : OrderBook) (id : Nat) : CanRes :=
  match alookup b.order_map id with
  | none => ⟨false, b⟩
  | some tok =>
    match alookup b.store tok with
    | none => ⟨false, b⟩
    | some r =>
      let b' := remove_order_internal b tok r
      ⟨true, { b' with m_cancels := b'.m_cancels + 1 }⟩

/-- OrderBook::best_bid. -/
def best_bid (b : OrderBook) : Option Int := b.bids.head?.map Prod.fst

/-- OrderBook::best_ask. -/
def best_ask (b : OrderBook) : Option Int := b.asks.head?.map Prod.fst

/-- OrderBook::spread. -/
def spread (b : OrderBook) : Option Int :=
  match best_bid b, best_ask b with
  | some bid, some ask => some (ask - bid)
  | _, _ => none

/-- OrderBook::get_bid_volume. -/
def get_bid_volume (b : OrderBook) (p : Int) : Nat :=
  match findLevel b.bids p with
  | none => 0
  | some L => L.total_volume

/-- OrderBook::get_ask_volume. -/
def get_ask_volume (b : OrderBook) (p : Int) : Nat :=
  match findLevel b.asks p with
  | none => 0
  | some L => L.total_volume

/-- OrderBook::bid_depth. -/
def bid_depth (b : OrderBook) : Nat := b.bids.length

/-- OrderBook::ask_depth. -/
def ask_depth (b : OrderBook) : Nat := b.asks.length

/-- OrderBook::total_orders. -/
def total_orders (b : OrderBook) : Nat := b.order_map.length

/-- A public operation of the engine. -/
inductive Op where
  | limit (id : Nat) (sd : Side) (price : Int) (qty : Nat)
  | market (id : Nat) (sd : Side) (qty : Nat)
  | cancel (id : Nat)
deriving DecidableEq, Repr

/-- The return value of a public operation. -/
inductive Ret where
  | rbool (b : Bool)
  | rqty (q : Nat)
deriving DecidableEq, Repr

/-- Result of running one operation. -/
structure StepRes where
  book : OrderBook
  ret : Ret
  trades : List Trade
  cur : Nat
deriving Repr

/-- Apply one public operation, drawing timestamps from the clock stream at
the cursor: one now() for order construction, then one per emitted trade. -/
def applyOp (b : OrderBook) (clock : Clock) (cur : Nat) : Op → StepRes
  | Op.limit id sd p q =>
    let r := add_limit_order b id sd p q (clock cur) (fun k => clock (cur + 1 + k)) 0
    ⟨r.book, Ret.rbool r.ok, r.trades, cur + 1 + r.trades.length⟩
  | Op.market id sd q =>
    let r := add_market_order b id sd q (clock cur) (fun k => clock (cur + 1 + k)) 0
    ⟨r.book, Ret.rqty r.filled, r.trades, cur + 1 + r.trades.length⟩
  | Op.cancel id =>
    let r := cancel_order b id
    ⟨r.book, Ret.rbool r.ok, [], cur⟩

/-- Result of running a list of operations. -/
structure RunRes where
  book : OrderBook
  rets : List Ret
  trades : List Trade
deriving Repr

/-- Run operations in sequence from a state and a clock cursor. -/
def runFrom (b : OrderBook) (clock : Clock) (cur : Nat) : List Op → RunRes
  | [] => ⟨b, [], []⟩
  | op :: ops =>
    let s := applyOp b clock cur op
    let r := runFrom s.book clock s.cur ops
    ⟨r.book, s.ret :: r.rets, s.trades ++ r.trades⟩

/-- Run a whole trace on a fresh book. -/
def runTrace (ops : List Op) (clock : Clock) : RunRes := runFrom book0 clock 0 ops

/-- The all-zero clock, used for concrete evaluations. -/
def czero : Clock := fun _ => 0

/-- Sum of the remaining quantities of the orders in a level's queue (the
value that the specification says total_volume should equal). -/
def level_rem_sum (st : Store) (L : PriceLevel) : Nat :=
  (L.queue.map (fun t => (tokRec st t).remaining_quantity)).sum

/-- Claim C1 (code bug).  After the repository's own PartialFill test
sequence (a resting SELL of 100 at 10000 partially filled by a BUY of 50),
the ask level at 10000 still reports total_volume 100 while the sum of the
remaining quantities of its queue is 50: match_order reduces the resting
order before remove_order reads it, and a partial fill never touches
total_volume_ at all, so the cached aggregate diverges from the queue.  The
repository's tests PartialFill and MarketOrder expect 50 and 25 here. -/
theorem c1_total_volume_diverges_eval :
    get_ask_volume (runTrace [Op.limit 1 Side.SELL 10000 100,
      Op.limit 2 Side.BUY 10000 50] czero).book 10000 = 100 ∧
    findLevel (runTrace [Op.limit 1 Side.SELL 10000 100,
      Op.limit 2 Side.BUY 10000 50] czero).book.asks 10000 =
      some ⟨[0], 100, 1⟩ ∧
    level_rem_sum (runTrace [Op.limit 1 Side.SELL 10000 100,
      Op.limit 2 Side.BUY 10000 50] czero).book.store ⟨[0], 100, 1⟩ = 50 := by
  decide

/-- Claim C9 (code bug).  cancel_order of an unknown id returns false on the
early path that never reaches record_cancel, so no cancel sample is
reported: after one add, cancelling an unknown id leaves the cancel sample
count at 0 (and the whole state unchanged), while cancelling the live id
reports exactly one sample. -/
theorem c9_cancel_unknown_no_sample_eval :
    (cancel_order (runTrace [Op.limit 1 Side.BUY 10 5] czero).book 99).ok = false ∧
    (cancel_order (runTrace [Op.limit 1 Side.BUY 10 5] czero).book 99).book =
      (runTrace [Op.limit 1 Side.BUY 10 5] czero).book ∧
    (cancel_order (runTrace [Op.limit 1 Side.BUY 10 5] czero).book 99).book.m_cancels = 0 ∧
    (cancel_order (runTrace [Op.limit 1 Side.BUY 10 5] czero).book 1).ok = true ∧
    (cancel_order (runTrace [Op.limit 1 Side.BUY 10 5] czero).book 1).book.m_cancels = 1 := by
  decide

/-- Claim C8, counterexample.  A limit submission with a non-positive price
is not rejected: add_limit_order(1, BUY, -5, 10) on the empty book returns
true, rests at price -5, and changes the queries (total_orders becomes 1 and
best_bid reports -5), where the claim demands a domain error with the index,
the ladders and all query results unchanged.  A zero-quantity limit likewise
raises no error (it returns false and still reports a record_add sample). -/
theorem c8_no_validation_counterexample :
    (runTrace [Op.limit 1 Side.BUY (-5) 10] czero).rets = [Ret.rbool true] ∧
    (runTrace [Op.limit 1 Side.BUY (-5) 10] czero).book.bids = [(-5, ⟨[0], 10, 1⟩)] ∧
    total_orders (runTrace [Op.limit 1 Side.BUY (-5) 10] czero).book = 1 ∧
    best_bid (runTrace [Op.limit 1 Side.BUY (-5) 10] czero).book = some (-5) ∧
    (runTrace [Op.limit 1 Side.BUY 10 0] czero).rets = [Ret.rbool false] ∧
    (runTrace [Op.limit 1 Side.BUY 10 0] czero).book.m_adds = 1 := by
  decide

/-! Association list lemmas. -/

theorem alookup_aset_self {α : Type} (m : List (Nat × α)) (k : Nat) (v : α) :
    alookup (aset m k v) k = some v := by
  induction m with
  | nil => simp [aset, alookup]
  | cons e r ih =>
    by_cases h : e.1 = k
    · simp [aset, h, alookup]
    · simp [aset, h, alookup, ih]

theorem alookup_aset_ne {α : Type} (m : List (Nat × α)) (k k' : Nat) (v : α)
    (h : k' ≠ k) : alookup (aset m k v) k' = alookup m k' := by
  have hne : k ≠ k' := fun hh => h hh.symm
  induction m with
  | nil => simp [aset, alookup, hne]
  | cons e r ih =>
    by_cases he : e.1 = k
    · subst he
      simp [aset, alookup, hne]
    · simp only [aset, he, if_false]
      by_cases he' : e.1 = k'
      · simp [alookup, he']
      · simp [alookup, he', ih]

theorem alookup_aerase_self {α : Type} (m : List (Nat × α)) (k : Nat) :
    alookup (aerase m k) k = none := by
  induction m with
  | nil => simp [aerase, alookup]
  | cons e r ih =>
    by_cases h : e.1 = k
    · simpa [aerase, List.filter, h] using ih
    · simpa [aerase, List.filter, h, alookup] using ih

theorem alookup_aerase_ne {α : Type} (m : List (Nat × α)) (k k' : Nat)
    (h : k' ≠ k) : alookup (aerase m k) k' = alookup m k' := by
  induction m with
  | nil => simp [aerase]
  | cons e r ih =>
    by_cases he : e.1 = k
    · have hek : e.1 ≠ k' := fun hh => h (hh ▸ he ▸ rfl)
      have : ¬ e.1 = k' := hek
      simp only [aerase, List.filter] at ih ⊢
      simp only [he, decide_not, decide_True, Bool.not_true]
      simpa [alookup, this] using ih
    · simp only [aerase, List.filter] at ih ⊢
      by_cases he' : e.1 = k'
      · simp [he, alookup, he', h]
      · simp only [he, decide_not]
        simpa [alookup, he'] using ih

theorem alookup_mem {α : Type} (m : List (Nat × α)) (k : Nat) (v : α)
    (h : alookup m k = some v) : (k, v) ∈ m := by
  induction m with
  | nil => simp [alookup] at h
  | cons e r ih =>
    by_cases he : e.1 = k
    · simp [alookup, he] at h
      have : e = (k, v) := by
        cases e; simp_all
      rw [this] at *
      exact List.mem_cons_self _ _
    · simp [alookup, he] at h
      exact List.mem_cons_of_mem _ (ih h)

theorem alookup_isSome_of_mem {α : Type} (m : List (Nat × α)) (k : Nat) (v : α)
    (h : (k, v) ∈ m) : (alookup m k).isSome = true := by
  induction m with
  | nil => simp at h
  | cons e r ih =>
    rcases List.mem_cons.1 h with h1 | h2
    · simp [alookup, ← h1]
    · by_cases he : e.1 = k
      · simp [alookup, he]
      · simpa [alookup, he] using ih h2

/-! Small projection lemmas. -/

@[simp] theorem reduce_quantity_rem (o : OrderRec) (t : Nat) :
    (o.reduce_quantity t).remaining_quantity = o.remaining_quantity - t := rfl

@[simp] theorem reduce_quantity_id (o : OrderRec) (t : Nat) :
    (o.reduce_quantity t).id = o.id := rfl

@[simp] theorem reduce_quantity_side (o : OrderRec) (t : Nat) :
    (o.reduce_quantity t).side = o.side := rfl

@[simp] theorem reduce_quantity_typ (o : OrderRec) (t : Nat) :
    (o.reduce_quantity t).typ = o.typ := rfl

@[simp] theorem reduce_quantity_price (o : OrderRec) (t : Nat) :
    (o.reduce_quantity t).price = o.price := rfl

@[simp] theorem reduce_quantity_quantity (o : OrderRec) (t : Nat) :
    (o.reduce_quantity t).quantity = o.quantity := rfl

@[simp] theorem mkTrade_quantity (sd : Side) (a b : OrderRec) (p : Int) (q ts : Nat) :
    (mkTrade sd a b p q ts).quantity = q := by cases sd <;> rfl

@[simp] theorem mkTrade_price (sd : Side) (a b : OrderRec) (p : Int) (q ts : Nat) :
    (mkTrade sd a b p q ts).price = p := by cases sd <;> rfl

/-- Sum of the quantities of a list of trades. -/
def sumQ (ts : List Trade) : Nat := (ts.map Trade.quantity).sum

@[simp] theorem sumQ_nil : sumQ [] = 0 := rfl

@[simp] theorem sumQ_cons (t : Trade) (ts : List Trade) :
    sumQ (t :: ts) = t.quantity + sumQ ts := by simp [sumQ]

@[simp] theorem sumQ_append (a b : List Trade) : sumQ (a ++ b) = sumQ a + sumQ b := by
  simp [sumQ]

/-! Matching loop: quantity accounting. -/

theorem matchQueue_inc_fields (sd : Side) (q : List Nat) :
    ∀ inc tv cnt st om (tsf : Clock) n,
      (matchQueue sd inc q tv cnt st om tsf n).inc.id = inc.id ∧
      (matchQueue sd inc q tv cnt st om tsf n).inc.side = inc.side ∧
      (matchQueue sd inc q tv cnt st om tsf n).inc.typ = inc.typ ∧
      (matchQueue sd inc q tv cnt st om tsf n).inc.price = inc.price ∧
      (matchQueue sd inc q tv cnt st om tsf n).inc.quantity = inc.quantity := by
  induction q with
  | nil => intro inc tv cnt st om tsf n; simp [matchQueue]
  | cons tok rest ih =>
    intro inc tv cnt st om tsf n
    simp only [matchQueue]
    by_cases h0 : inc.remaining_quantity = 0
    · simp [h0]
    · simp only [h0, if_false]
      cases halk : alookup st tok with
      | none => exact ih inc tv cnt st om tsf n
      | some r0 =>
        by_cases hz : r0.remaining_quantity - min inc.remaining_quantity r0.remaining_quantity = 0
        · simp only [reduce_quantity_rem, hz, if_true]
          have := ih (inc.reduce_quantity (min inc.remaining_quantity r0.remaining_quantity))
            (u64sub tv 0) (cnt - 1)
            (aset st tok (r0.reduce_quantity (min inc.remaining_quantity r0.remaining_quantity)))
            (aerase om r0.id) tsf (n + 1)
          simpa using this
        · simp [hz]

theorem matchQueue_rem_le (sd : Side) (q : List Nat) :
    ∀ inc tv cnt st om (tsf : Clock) n,
      (matchQueue sd inc q tv cnt st om tsf n).inc.remaining_quantity ≤
        inc.remaining_quantity := by
  induction q with
  | nil => intro inc tv cnt st om tsf n; simp [matchQueue]
  | cons tok rest ih =>
    intro inc tv cnt st om tsf n
    simp only [matchQueue]
    by_cases h0 : inc.remaining_quantity = 0
    · simp [h0]
    · simp only [h0, if_false]
      cases halk : alookup st tok with
      | none => exact ih inc tv cnt st om tsf n
      | some r0 =>
        by_cases hz : r0.remaining_quantity - min inc.remaining_quantity r0.remaining_quantity = 0
        · simp only [reduce_quantity_rem, hz, if_true]
          have := ih (inc.reduce_quantity (min inc.remaining_quantity r0.remaining_quantity))
            (u64sub tv 0) (cnt - 1)
            (aset st tok (r0.reduce_quantity (min inc.remaining_quantity r0.remaining_quantity)))
            (aerase om r0.id) tsf (n + 1)
          simp only [reduce_quantity_rem] at this
          calc (matchQueue sd (inc.reduce_quantity (min inc.remaining_quantity r0.remaining_quantity)) rest
                (u64sub tv 0) (cnt - 1)
                (aset st tok (r0.reduce_quantity (min inc.remaining_quantity r0.remaining_quantity)))
                (aerase om r0.id) tsf (n + 1)).inc.remaining_quantity
              ≤ inc.remaining_quantity - min inc.remaining_quantity r0.remaining_quantity := by
                simpa using this
            _ ≤ inc.remaining_quantity := Nat.sub_le _ _
        · simp [hz]

theorem matchQueue_sum (sd : Side) (q : List Nat) :
    ∀ inc tv cnt st om (tsf : Clock) n,
      (matchQueue sd inc q tv cnt st om tsf n).inc.remaining_quantity +
        sumQ (matchQueue sd inc q tv cnt st om tsf n).trades =
        inc.remaining_quantity := by
  induction q with
  | nil => intro inc tv cnt st om tsf n; simp [matchQueue]
  | cons tok rest ih =>
    intro inc tv cnt st om tsf n
    simp only [matchQueue]
    by_cases h0 : inc.remaining_quantity = 0
    · simp [h0]
    · simp only [h0, if_false]
      cases halk : alookup st tok with
      | none => exact ih inc tv cnt st om tsf n
      | some r0 =>
        by_cases hz : r0.remaining_quantity - min inc.remaining_quantity r0.remaining_quantity = 0
        · simp only [reduce_quantity_rem, hz, if_true]
          have := ih (inc.reduce_quantity (min inc.remaining_quantity r0.remaining_quantity))
            (u64sub tv 0) (cnt - 1)
            (aset st tok (r0.reduce_quantity (min inc.remaining_quantity r0.remaining_quantity)))
            (aerase om r0.id) tsf (n + 1)
          simp only [reduce_quantity_rem] at this
          simp only [sumQ_cons, mkTrade_quantity]
          have hmin : min inc.remaining_quantity r0.remaining_quantity ≤ inc.remaining_quantity :=
            Nat.min_le_left _ _
          omega
        · simp only [reduce_quantity_rem, hz, if_false]
          simp only [sumQ_cons, sumQ_nil, mkTrade_quantity, reduce_quantity_rem]
          have hmin : min inc.remaining_quantity r0.remaining_quantity ≤ inc.remaining_quantity :=
            Nat.min_le_left _ _
          omega

theorem matchLadder_inc_fields (sd : Side) (ladder : Ladder) :
    ∀ inc st om (tsf : Clock) n,
      (matchLadder sd inc ladder st om tsf n).inc.id = inc.id ∧
      (matchLadder sd inc ladder st om tsf n).inc.side = inc.side ∧
      (matchLadder sd inc ladder st om tsf n).inc.typ = inc.typ ∧
      (matchLadder sd inc ladder st om tsf n).inc.price = inc.price ∧
      (matchLadder sd inc ladder st om tsf n).inc.quantity = inc.quantity := by
  induction ladder with
  | nil => intro inc st om tsf n; simp [matchLadder]
  | cons pl rest ih =>
    intro inc st om tsf n
    obtain ⟨p, L⟩ := pl
    simp only [matchLadder]
    by_cases h0 : inc.remaining_quantity = 0
    · simp [h0]
    · simp only [h0, if_false]
      by_cases hc : inc.typ ≠ OrderType.MARKET ∧ crossStop sd inc.price p
      · simp [hc]
      · simp only [if_neg hc]
        by_cases hq : (matchQueue sd inc L.queue L.total_volume L.order_count st om tsf n).q = []
        · simp only [hq, if_true]
          have h1 := matchQueue_inc_fields sd L.queue inc L.total_volume L.order_count st om tsf n
          have h2 := ih (matchQueue sd inc L.queue L.total_volume L.order_count st om tsf n).inc
            (matchQueue sd inc L.queue L.total_volume L.order_count st om tsf n).st
            (matchQueue sd inc L.queue L.total_volume L.order_count st om tsf n).om tsf
            (matchQueue sd inc L.queue L.total_volume L.order_count st om tsf n).n
          exact ⟨h2.1.trans h1.1, h2.2.1.trans h1.2.1, h2.2.2.1.trans h1.2.2.1,
            h2.2.2.2.1.trans h1.2.2.2.1, h2.2.2.2.2.trans h1.2.2.2.2⟩
        · simp only [hq, if_false]
          exact matchQueue_inc_fields sd L.queue inc L.total_volume L.order_count st om tsf n

theorem matchLadder_rem_le (sd : Side) (ladder : Ladder) :
    ∀ inc st om (tsf : Clock) n,
      (matchLadder sd inc ladder st om tsf n).inc.remaining_quantity ≤
        inc.remaining_quantity := by
  induction ladder with
  | nil => intro inc st om tsf n; simp [matchLadder]
  | cons pl rest ih =>
    intro inc st om tsf n
    obtain ⟨p, L⟩ := pl
    simp only [matchLadder]
    by_cases h0 : inc.remaining_quantity = 0
    · simp [h0]
    · simp only [h0, if_false]
      by_cases hc : inc.typ ≠ OrderType.MARKET ∧ crossStop sd inc.price p
      · simp [hc]
      · simp only [if_neg hc]
        by_cases hq : (matchQueue sd inc L.queue L.total_volume L.order_count st om tsf n).q = []
        · simp only [hq, if_true]
          have h1 := matchQueue_rem_le sd L.queue inc L.total_volume L.order_count st om tsf n
          have h2 := ih (matchQueue sd inc L.queue L.total_volume L.order_count st om tsf n).inc
            (matchQueue sd inc L.queue L.total_volume L.order_count st om tsf n).st
            (matchQueue sd inc L.queue L.total_volume L.order_count st om tsf n).om tsf
            (matchQueue sd inc L.queue L.total_volume L.order_count st om tsf n).n
          exact le_trans h2 h1
        · simp only [hq, if_false]
          exact matchQueue_rem_le sd L.queue inc L.total_volume L.order_count st om tsf n

theorem matchLadder_sum (sd : Side) (ladder : Ladder) :
    ∀ inc st om (tsf : Clock) n,
      (matchLadder sd inc ladder st om tsf n).inc.remaining_quantity +
        sumQ (matchLadder sd inc ladder st om tsf n).trades =
        inc.remaining_quantity := by
  induction ladder with
  | nil => intro inc st om tsf n; simp [matchLadder]
  | cons pl rest ih =>
    intro inc st om tsf n
    obtain ⟨p, L⟩ := pl
    simp only [matchLadder]
    by_cases h0 : inc.remaining_quantity = 0
    · simp [h0]
    · simp only [h0, if_false]
      by_cases hc : inc.typ ≠ OrderType.MARKET ∧ crossStop sd inc.price p
      · simp [hc]
      · simp only [if_neg hc]
        by_cases hq : (matchQueue sd inc L.queue L.total_volume L.order_count st om tsf n).q = []
        · simp only [hq, if_true]
          have h1 := matchQueue_sum sd L.queue inc L.total_volume L.order_count st om tsf n
          have h2 := ih (matchQueue sd inc L.queue L.total_volume L.order_count st om tsf n).inc
            (matchQueue sd inc L.queue L.total_volume L.order_count st om tsf n).st
            (matchQueue sd inc L.queue L.total_volume L.order_count st om tsf n).om tsf
            (matchQueue sd inc L.queue L.total_volume L.order_count st om tsf n).n
          simp only [sumQ_append]
          omega
        · simp only [hq, if_false]
          exact matchQueue_sum sd L.queue inc L.total_volume L.order_count st om tsf n

theorem match_order_rem_le (b : OrderBook) (inc : OrderRec) (tsf : Clock) (n : Nat) :
    (match_order b inc tsf n).1.remaining_quantity ≤ inc.remaining_quantity := by
  unfold match_order
  by_cases h0 : inc.remaining_quantity = 0
  · simp [h0]
  · cases sd : inc.side <;> simp only [h0, if_false, sd] <;>
      exact matchLadder_rem_le _ _ inc _ _ tsf n

theorem match_order_sum (b : OrderBook) (inc : OrderRec) (tsf : Clock) (n : Nat) :
    (match_order b inc tsf n).1.remaining_quantity +
      sumQ (match_order b inc tsf n).2.2.1 = inc.remaining_quantity := by
  unfold match_order
  by_cases h0 : inc.remaining_quantity = 0
  · simp [h0]
  · cases sd : inc.side <;> simp only [h0, if_false, sd] <;>
      exact matchLadder_sum _ _ inc _ _ tsf n

/-- Claim C4 (confirmed).  For add_market_order with positive quantity and a
fresh id: the returned filled quantity is at most qty and equals the sum of
the quantities of the emitted trades; the id is absent from the id index
when the call returns; and with an empty opposite ladder the call returns 0
and emits no trade. -/
theorem c4_add_market_order (b : OrderBook) (id : Nat) (sd : Side) (qty ts : Nat)
    (tsf : Clock) (n : Nat) (hq : 0 < qty) (hid : alookup b.order_map id = none) :
    (add_market_order b id sd qty ts tsf n).filled ≤ qty ∧
    (add_market_order b id sd qty ts tsf n).filled =
      sumQ (add_market_order b id sd qty ts tsf n).trades ∧
    alookup (add_market_order b id sd qty ts tsf n).book.order_map id = none ∧
    (sd = Side.BUY → b.asks = [] →
      (add_market_order b id sd qty ts tsf n).filled = 0 ∧
      (add_market_order b id sd qty ts tsf n).trades = []) ∧
    (sd = Side.SELL → b.bids = [] →
      (add_market_order b id sd qty ts tsf n).filled = 0 ∧
      (add_market_order b id sd qty ts tsf n).trades = []) := by
  have hsum := match_order_sum
    { b with
      next_tok := b.next_tok + 1
      store := aset b.store b.next_tok ⟨id, sd, OrderType.MARKET, 0, qty, qty, ts⟩
      order_map := aset b.order_map id b.next_tok }
    ⟨id, sd, OrderType.MARKET, 0, qty, qty, ts⟩ tsf n
  have hle := match_order_rem_le
    { b with
      next_tok := b.next_tok + 1
      store := aset b.store b.next_tok ⟨id, sd, OrderType.MARKET, 0, qty, qty, ts⟩
      order_map := aset b.order_map id b.next_tok }
    ⟨id, sd, OrderType.MARKET, 0, qty, qty, ts⟩ tsf n
  have hsum2 : (match_order
      { b with
        next_tok := b.next_tok + 1
        store := aset b.store b.next_tok ⟨id, sd, OrderType.MARKET, 0, qty, qty, ts⟩
        order_map := aset b.order_map id b.next_tok }
      ⟨id, sd, OrderType.MARKET, 0, qty, qty, ts⟩ tsf n).1.remaining_quantity +
      sumQ (match_order
      { b with
        next_tok := b.next_tok + 1
        store := aset b.store b.next_tok ⟨id, sd, OrderType.MARKET, 0, qty, qty, ts⟩
        order_map := aset b.order_map id b.next_tok }
      ⟨id, sd, OrderType.MARKET, 0, qty, qty, ts⟩ tsf n).2.2.1 = qty := hsum
  have hle2 : (match_order
      { b with
        next_tok := b.next_tok + 1
        store := aset b.store b.next_tok ⟨id, sd, OrderType.MARKET, 0, qty, qty, ts⟩
        order_map := aset b.order_map id b.next_tok }
      ⟨id, sd, OrderType.MARKET, 0, qty, qty, ts⟩ tsf n).1.remaining_quantity ≤ qty := hle
  refine ⟨?_, ?_, ?_, ?_, ?_⟩
  · simp only [add_market_order]
    exact Nat.sub_le _ _
  · simp only [add_market_order]
    omega
  · simp only [add_market_order]
    exact alookup_aerase_self _ _
  · intro hsd hask
    subst hsd
    simp only [add_market_order, match_order, if_neg (Nat.pos_iff_ne_zero.1 hq), hask,
      matchLadder]
    exact ⟨by omega, trivial⟩
  · intro hsd hbid
    subst hsd
    simp only [add_market_order, match_order, if_neg (Nat.pos_iff_ne_zero.1 hq), hbid,
      matchLadder]
    exact ⟨by omega, trivial⟩

/-- Witness for c4_add_market_order at a concrete input. -/
theorem c4_add_market_order_witness :
    (add_market_order book0 1 Side.BUY 5 0 czero 0).filled ≤ 5 ∧
    (add_market_order book0 1 Side.BUY 5 0 czero 0).filled =
      sumQ (add_market_order book0 1 Side.BUY 5 0 czero 0).trades ∧
    alookup (add_market_order book0 1 Side.BUY 5 0 czero 0).book.order_map 1 = none := by
  have h := c4_add_market_order book0 1 Side.BUY 5 0 czero 0 (by decide) (by rfl)
  exact ⟨h.1, h.2.1, h.2.2.1⟩

/-! Well-formedness of a book state: what is true of every state reachable
by fresh-id operations, and what the functional-correctness proofs assume
about the entry state. -/

/-- A token resting in a level of side sd at price p points at a live limit
record of that side and price with positive remaining quantity. -/
def levelTokOK (st : Store) (sd : Side) (p : Int) (tok : Nat) : Prop :=
  tokLive st tok ∧ (tokRec st tok).side = sd ∧ (tokRec st tok).price = p ∧
  (tokRec st tok).typ = OrderType.LIMIT ∧ 0 < (tokRec st tok).remaining_quantity

instance (st : Store) (sd : Side) (p : Int) (tok : Nat) :
    Decidable (levelTokOK st sd p tok) := by
  unfold levelTokOK; infer_instance

/-- Per-ladder well-formedness: levels are nonempty, order_count caches the
queue length, queue tokens are distinct, allocated below next_tok, and point
at records of this ladder's side and the level's price. -/
def ladderWF (st : Store) (nt : Nat) (sd : Side) (l : Ladder) : Prop :=
  ∀ pl ∈ l, pl.2.queue ≠ [] ∧ pl.2.order_count = pl.2.queue.length ∧
    pl.2.queue.Nodup ∧ ∀ tok ∈ pl.2.queue, tok < nt ∧ levelTokOK st sd pl.1 tok

/-- Whether the ladder has a level at p whose queue holds tok. -/
def inLevelAt (l : Ladder) (p : Int) (tok : Nat) : Bool :=
  match findLevel l p with
  | none => false
  | some L => decide (tok ∈ L.queue)

/-- Strict sortedness of a ladder under its comparator. -/
def sortedByB (cmp : Int → Int → Bool) : Ladder → Bool
  | [] => true
  | [_] => true
  | x :: y :: r => cmp x.1 y.1 && sortedByB cmp (y :: r)

/-- Every id-index entry points below next_tok at a live record carrying
that id, and the record rests in the level at its price on its side. -/
def mapWF (b : OrderBook) : Prop :=
  ∀ e ∈ b.order_map, e.2 < b.next_tok ∧ tokLive b.store e.2 ∧
    (tokRec b.store e.2).id = e.1 ∧
    ((tokRec b.store e.2).side = Side.BUY →
      inLevelAt b.bids (tokRec b.store e.2).price e.2 = true) ∧
    ((tokRec b.store e.2).side = Side.SELL →
      inLevelAt b.asks (tokRec b.store e.2).price e.2 = true)

/-- Every resting order's id is a key of the id index. -/
def restingInMap (b : OrderBook) : Prop :=
  (∀ pl ∈ b.bids, ∀ tok ∈ pl.2.queue,
    (alookup b.order_map (tokRec b.store tok).id).isSome = true) ∧
  (∀ pl ∈ b.asks, ∀ tok ∈ pl.2.queue,
    (alookup b.order_map (tokRec b.store tok).id).isSome = true)

/-- Well-formedness of a quiescent book state. -/
def WF (b : OrderBook) : Prop :=
  sortedByB cmpBid b.bids = true ∧ sortedByB cmpAsk b.asks = true ∧
  ladderWF b.store b.next_tok Side.BUY b.bids ∧
  ladderWF b.store b.next_tok Side.SELL b.asks ∧
  mapWF b ∧ restingInMap b

instance (b : OrderBook) : Decidable (WF b) := by
  unfold WF ladderWF mapWF restingInMap; infer_instance

/-- The fields of an order record that matching never changes. -/
def metaOf (o : OrderRec) : Nat × Side × OrderType × Int × Nat :=
  (o.id, o.side, o.typ, o.price, o.quantity)

@[simp] theorem metaOf_reduce (o : OrderRec) (t : Nat) :
    metaOf (o.reduce_quantity t) = metaOf o := rfl

theorem metaOf_id {a b : OrderRec} (h : metaOf a = metaOf b) : a.id = b.id :=
  congrArg Prod.fst h

theorem metaOf_side {a b : OrderRec} (h : metaOf a = metaOf b) : a.side = b.side :=
  congrArg (fun t => t.2.1) h

theorem metaOf_price {a b : OrderRec} (h : metaOf a = metaOf b) : a.price = b.price :=
  congrArg (fun t => t.2.2.2.1) h

theorem aset_keeps_meta (st : Store) (k : Nat) (r0 r' : OrderRec)
    (h : alookup st k = some r0) (hm : metaOf r' = metaOf r0) (tok' : Nat) :
    (alookup (aset st k r') tok').isSome = (alookup st tok').isSome ∧
    metaOf (tokRec (aset st k r') tok') = metaOf (tokRec st tok') := by
  by_cases he : tok' = k
  · subst he
    rw [alookup_aset_self]
    rw [tokRec, tokRec, alookup_aset_self, h]
    simp [hm]
  · rw [alookup_aset_ne _ _ _ _ he, tokRec, tokRec, alookup_aset_ne _ _ _ _ he]
    exact ⟨rfl, rfl⟩

theorem matchQueue_store_meta (sd : Side) (q : List Nat) :
    ∀ inc tv cnt st om (tsf : Clock) n tok',
      (alookup (matchQueue sd inc q tv cnt st om tsf n).st tok').isSome =
        (alookup st tok').isSome ∧
      metaOf (tokRec (matchQueue sd inc q tv cnt st om tsf n).st tok') =
        metaOf (tokRec st tok') := by
  induction q with
  | nil => intro inc tv cnt st om tsf n tok'; simp [matchQueue]
  | cons tok rest ih =>
    intro inc tv cnt st om tsf n tok'
    simp only [matchQueue]
    by_cases h0 : inc.remaining_quantity = 0
    · simp [h0]
    · simp only [h0, if_false]
      cases halk : alookup st tok with
      | none => exact ih inc tv cnt st om tsf n tok'
      | some r0 =>
        have hstep := aset_keeps_meta st tok r0
          (r0.reduce_quantity (min inc.remaining_quantity r0.remaining_quantity)) halk
          (metaOf_reduce _ _) tok'
        by_cases hz : r0.remaining_quantity - min inc.remaining_quantity r0.remaining_quantity = 0
        · simp only [reduce_quantity_rem, hz, if_true]
          have hrec := ih (inc.reduce_quantity (min inc.remaining_quantity r0.remaining_quantity))
            (u64sub tv 0) (cnt - 1)
            (aset st tok (r0.reduce_quantity (min inc.remaining_quantity r0.remaining_quantity)))
            (aerase om r0.id) tsf (n + 1) tok'
          simp only [hz] at hstep
          exact ⟨hrec.1.trans hstep.1, hrec.2.trans hstep.2⟩
        · simp only [reduce_quantity_rem, hz, if_false]
          exact hstep

theorem matchLadder_store_meta (sd : Side) (ladder : Ladder) :
    ∀ inc st om (tsf : Clock) n tok',
      (alookup (matchLadder sd inc ladder st om tsf n).st tok').isSome =
        (alookup st tok').isSome ∧
      metaOf (tokRec (matchLadder sd inc ladder st om tsf n).st tok') =
        metaOf (tokRec st tok') := by
  induction ladder with
  | nil => intro inc st om tsf n tok'; simp [matchLadder]
  | cons pl rest ih =>
    intro inc st om tsf n tok'
    obtain ⟨p, L⟩ := pl
    simp only [matchLadder]
    by_cases h0 : inc.remaining_quantity = 0
    · simp [h0]
    · simp only [h0, if_false]
      by_cases hc : inc.typ ≠ OrderType.MARKET ∧ crossStop sd inc.price p
      · simp [hc]
      · simp only [if_neg hc]
        have h1 := matchQueue_store_meta sd L.queue inc L.total_volume L.order_count st om tsf n tok'
        by_cases hq : (matchQueue sd inc L.queue L.total_volume L.order_count st om tsf n).q = []
        · simp only [hq, if_true]
          have h2 := ih (matchQueue sd inc L.queue L.total_volume L.order_count st om tsf n).inc
            (matchQueue sd inc L.queue L.total_volume L.order_count st om tsf n).st
            (matchQueue sd inc L.queue L.total_volume L.order_count st om tsf n).om tsf
            (matchQueue sd inc L.queue L.total_volume L.order_count st om tsf n).n tok'
          exact ⟨h2.1.trans h1.1, h2.2.trans h1.2⟩
        · simp only [hq, if_false]
          exact h1

theorem matchQueue_omap_pres (sd : Side) (q : List Nat) :
    ∀ inc tv cnt st om (tsf : Clock) n k,
      (∀ tok ∈ q, (alookup st tok).isSome = true → (tokRec st tok).id ≠ k) →
      alookup (matchQueue sd inc q tv cnt st om tsf n).om k = alookup om k := by
  induction q with
  | nil => intro inc tv cnt st om tsf n k _; simp [matchQueue]
  | cons tok rest ih =>
    intro inc tv cnt st om tsf n k hids
    simp only [matchQueue]
    by_cases h0 : inc.remaining_quantity = 0
    · simp [h0]
    · simp only [h0, if_false]
      cases halk : alookup st tok with
      | none =>
        exact ih inc tv cnt st om tsf n k
          (fun t ht hs => hids t (List.mem_cons_of_mem _ ht) hs)
      | some r0 =>
        have hr0 : tokRec st tok = r0 := by simp [tokRec, halk]
        have hid0 : r0.id ≠ k := by
          have := hids tok (List.mem_cons_self _ _) (by simp [halk])
          rwa [hr0] at this
        by_cases hz : r0.remaining_quantity - min inc.remaining_quantity r0.remaining_quantity = 0
        · simp only [reduce_quantity_rem, hz, if_true]
          have hrec := ih (inc.reduce_quantity (min inc.remaining_quantity r0.remaining_quantity))
            (u64sub tv 0) (cnt - 1)
            (aset st tok (r0.reduce_quantity (min inc.remaining_quantity r0.remaining_quantity)))
            (aerase om r0.id) tsf (n + 1) k ?hyp
          · rw [hrec, alookup_aerase_ne _ _ _ (Ne.symm hid0)]
          · intro t ht hs
            have hstep := aset_keeps_meta st tok r0
              (r0.reduce_quantity (min inc.remaining_quantity r0.remaining_quantity)) halk
              (metaOf_reduce _ _) t
            rw [hstep.1] at hs
            have := hids t (List.mem_cons_of_mem _ ht) hs
            rw [← metaOf_id hstep.2] at this
            exact this
        · simp only [reduce_quantity_rem, hz, if_false]

theorem matchLadder_omap_pres (sd : Side) (ladder : Ladder) :
    ∀ inc st om (tsf : Clock) n k,
      (∀ pl ∈ ladder, ∀ tok ∈ pl.2.queue,
        (alookup st tok).isSome = true → (tokRec st tok).id ≠ k) →
      alookup (matchLadder sd inc ladder st om tsf n).om k = alookup om k := by
  induction ladder with
  | nil => intro inc st om tsf n k _; simp [matchLadder]
  | cons pl rest ih =>
    intro inc st om tsf n k hids
    obtain ⟨p, L⟩ := pl
    simp only [matchLadder]
    by_cases h0 : inc.remaining_quantity = 0
    · simp [h0]
    · simp only [h0, if_false]
      by_cases hc : inc.typ ≠ OrderType.MARKET ∧ crossStop sd inc.price p
      · simp [hc]
      · simp only [if_neg hc]
        have hq1 := matchQueue_omap_pres sd L.queue inc L.total_volume L.order_count st om tsf n k
          (fun t ht hs => hids (p, L) (List.mem_cons_self _ _) t ht hs)
        by_cases hq : (matchQueue sd inc L.queue L.total_volume L.order_count st om tsf n).q = []
        · simp only [hq, if_true]
          have hrec := ih (matchQueue sd inc L.queue L.total_volume L.order_count st om tsf n).inc
            (matchQueue sd inc L.queue L.total_volume L.order_count st om tsf n).st
            (matchQueue sd inc L.queue L.total_volume L.order_count st om tsf n).om tsf
            (matchQueue sd inc L.queue L.total_volume L.order_count st om tsf n).n k ?hyp
          · exact hrec.trans hq1
          · intro pl2 hpl2 t ht hs
            have hmeta := matchQueue_store_meta sd L.queue inc L.total_volume L.order_count st om tsf n t
            rw [hmeta.1] at hs
            have := hids pl2 (List.mem_cons_of_mem _ hpl2) t ht hs
            rw [← metaOf_id hmeta.2] at this
            exact this
        · simp only [hq, if_false]
          exact hq1

theorem match_order_buy (b : OrderBook) (inc : OrderRec) (tsf : Clock) (n : Nat)
    (h0 : inc.remaining_quantity ≠ 0) (hs : inc.side = Side.BUY) :
    (match_order b inc tsf n).1 =
      (matchLadder Side.BUY inc b.asks b.store b.order_map tsf n).inc ∧
    (match_order b inc tsf n).2.1.bids = b.bids ∧
    (match_order b inc tsf n).2.1.asks =
      (matchLadder Side.BUY inc b.asks b.store b.order_map tsf n).ladder ∧
    (match_order b inc tsf n).2.1.store =
      (matchLadder Side.BUY inc b.asks b.store b.order_map tsf n).st ∧
    (match_order b inc tsf n).2.1.order_map =
      (matchLadder Side.BUY inc b.asks b.store b.order_map tsf n).om ∧
    (match_order b inc tsf n).2.2.1 =
      (matchLadder Side.BUY inc b.asks b.store b.order_map tsf n).trades ∧
    (match_order b inc tsf n).2.1.next_tok = b.next_tok ∧
    (match_order b inc tsf n).2.1.m_adds = b.m_adds ∧
    (match_order b inc tsf n).2.1.m_cancels = b.m_cancels := by
  unfold match_order
  simp only [h0, if_false, hs]
  refine ⟨?_, ?_, ?_, ?_, ?_, ?_, ?_, ?_, ?_⟩ <;>
    first
      | rfl
      | trivial
      | (split <;> rfl)

theorem match_order_sell (b : OrderBook) (inc : OrderRec) (tsf : Clock) (n : Nat)
    (h0 : inc.remaining_quantity ≠ 0) (hs : inc.side = Side.SELL) :
    (match_order b inc tsf n).1 =
      (matchLadder Side.SELL inc b.bids b.store b.order_map tsf n).inc ∧
    (match_order b inc tsf n).2.1.asks = b.asks ∧
    (match_order b inc tsf n).2.1.bids =
      (matchLadder Side.SELL inc b.bids b.store b.order_map tsf n).ladder ∧
    (match_order b inc tsf n).2.1.store =
      (matchLadder Side.SELL inc b.bids b.store b.order_map tsf n).st ∧
    (match_order b inc tsf n).2.1.order_map =
      (matchLadder Side.SELL inc b.bids b.store b.order_map tsf n).om ∧
    (match_order b inc tsf n).2.2.1 =
      (matchLadder Side.SELL inc b.bids b.store b.order_map tsf n).trades ∧
    (match_order b inc tsf n).2.1.next_tok = b.next_tok ∧
    (match_order b inc tsf n).2.1.m_adds = b.m_adds ∧
    (match_order b inc tsf n).2.1.m_cancels = b.m_cancels := by
  unfold match_order
  simp only [h0, if_false, hs]
  refine ⟨?_, ?_, ?_, ?_, ?_, ?_, ?_, ?_, ?_⟩ <;>
    first
      | rfl
      | trivial
      | (split <;> rfl)

/-- The ladder on the incoming order's own side. -/
def nearLadder (b : OrderBook) (sd : Side) : Ladder :=
  match sd with
  | Side.BUY => b.bids
  | Side.SELL => b.asks

theorem findLevel_upsert_self (cmp : Int → Int → Bool) (p : Int)
    (f : PriceLevel → PriceLevel) (l : Ladder) :
    ∃ L0, findLevel (upsertLevel cmp p f l) p = some (f L0) := by
  induction l with
  | nil => exact ⟨PriceLevel.empty, by simp [upsertLevel, findLevel]⟩
  | cons e r ih =>
    obtain ⟨q, L⟩ := e
    by_cases hqp : q = p
    · exact ⟨L, by simp [upsertLevel, hqp, findLevel]⟩
    · by_cases hcmp : cmp p q
      · exact ⟨PriceLevel.empty, by simp [upsertLevel, hqp, hcmp, findLevel]⟩
      · obtain ⟨L0, hL0⟩ := ih
        exact ⟨L0, by simp [upsertLevel, hqp, hcmp, findLevel, hL0]⟩

theorem findLevel_upsert_ne (cmp : Int → Int → Bool) (p q' : Int)
    (f : PriceLevel → PriceLevel) (l : Ladder) (h : q' ≠ p) :
    findLevel (upsertLevel cmp p f l) q' = findLevel l q' := by
  have h' : ¬ p = q' := fun hh => h hh.symm
  induction l with
  | nil => simp [upsertLevel, findLevel, h']
  | cons e r ih =>
    obtain ⟨q, L⟩ := e
    by_cases hqp : q = p
    · have hqq : ¬ q = q' := by rw [hqp]; exact h'
      simp [upsertLevel, hqp, findLevel, h', hqq]
    · by_cases hcmp : cmp p q
      · simp [upsertLevel, hqp, hcmp, findLevel, h']
      · by_cases hq' : q = q'
        · subst hq'
          simp [upsertLevel, hqp, hcmp, findLevel]
        · simp [upsertLevel, hqp, hcmp, findLevel, hq', ih]

theorem fresh_id_not_resting (st : Store) (nt : Nat) (sd : Side) (l : Ladder)
    (om : OMap) (id : Nat) (o : OrderRec)
    (hl : ladderWF st nt sd l)
    (hr : ∀ pl ∈ l, ∀ tok ∈ pl.2.queue, (alookup om (tokRec st tok).id).isSome = true)
    (hid : alookup om id = none) :
    ∀ pl ∈ l, ∀ tok ∈ pl.2.queue,
      (alookup (aset st nt o) tok).isSome = true →
      (tokRec (aset st nt o) tok).id ≠ id := by
  intro pl hpl tok htok _
  have h1 := (hl pl hpl).2.2.2 tok htok
  have hne : tok ≠ nt := Nat.ne_of_lt h1.1
  have heq : tokRec (aset st nt o) tok = tokRec st tok := by
    rw [tokRec, tokRec, alookup_aset_ne _ _ _ _ hne]
  rw [heq]
  intro hh
  have h2 := hr pl hpl tok htok
  rw [hh, hid] at h2
  simp at h2

theorem matchLadder_nocross (sd : Side) (inc : OrderRec) (ladder : Ladder)
    (st : Store) (om : OMap) (tsf : Clock) (n : Nat)
    (hne : inc.remaining_quantity ≠ 0) (hl : inc.typ ≠ OrderType.MARKET)
    (hcross : ∀ pl, ladder.head? = some pl → crossStop sd inc.price pl.1) :
    matchLadder sd inc ladder st om tsf n = ⟨inc, ladder, st, om, [], n⟩ := by
  cases ladder with
  | nil => simp [matchLadder]
  | cons pl rest =>
    obtain ⟨p, L⟩ := pl
    have hc := hcross (p, L) rfl
    simp only [matchLadder]
    rw [if_neg hne, if_pos ⟨hl, hc⟩]

/-- Claim C3 (confirmed).  For add_limit_order on a well-formed book with
positive quantity, positive price and a fresh id: the call returns true
exactly when the order's remaining quantity after matching is positive, in
which case the id still maps to the new record and its token has been
appended to the level at the limit price in the near-side ladder; it returns
false exactly when the order was fully consumed, in which case the id has
been removed from the id index; and a non-crossing limit returns true with
no trade emitted. -/
theorem c3_add_limit_order (b : OrderBook) (id : Nat) (sd : Side) (price : Int)
    (qty ts : Nat) (tsf : Clock) (n : Nat)
    (hwf : WF b) (hq : 0 < qty) (hp : 0 < price)
    (hid : alookup b.order_map id = none) :
    ((add_limit_order b id sd price qty ts tsf n).ok = true ↔
      0 < (tokRec (add_limit_order b id sd price qty ts tsf n).book.store
        b.next_tok).remaining_quantity) ∧
    ((add_limit_order b id sd price qty ts tsf n).ok = true →
      alookup (add_limit_order b id sd price qty ts tsf n).book.order_map id =
        some b.next_tok ∧
      ∃ L, findLevel (nearLadder (add_limit_order b id sd price qty ts tsf n).book sd)
        price = some L ∧ b.next_tok ∈ L.queue) ∧
    ((add_limit_order b id sd price qty ts tsf n).ok = false →
      alookup (add_limit_order b id sd price qty ts tsf n).book.order_map id = none) ∧
    (sd = Side.BUY → (∀ pl, b.asks.head? = some pl → price < pl.1) →
      (add_limit_order b id sd price qty ts tsf n).ok = true ∧
      (add_limit_order b id sd price qty ts tsf n).trades = []) ∧
    (sd = Side.SELL → (∀ pl, b.bids.head? = some pl → pl.1 < price) →
      (add_limit_order b id sd price qty ts tsf n).ok = true ∧
      (add_limit_order b id sd price qty ts tsf n).trades = []) := by
  obtain ⟨hsb, hsa, hlb, hla, hmap, hrin⟩ := hwf
  have hqz : qty ≠ 0 := Nat.pos_iff_ne_zero.1 hq
  cases sd with
  | BUY =>
    have hml := match_order_buy
      { b with
        next_tok := b.next_tok + 1
        store := aset b.store b.next_tok ⟨id, Side.BUY, OrderType.LIMIT, price, qty, qty, ts⟩
        order_map := aset b.order_map id b.next_tok }
      ⟨id, Side.BUY, OrderType.LIMIT, price, qty, qty, ts⟩ tsf n hqz rfl
    simp only at hml
    have homid : alookup (matchLadder Side.BUY
        ⟨id, Side.BUY, OrderType.LIMIT, price, qty, qty, ts⟩ b.asks
        (aset b.store b.next_tok ⟨id, Side.BUY, OrderType.LIMIT, price, qty, qty, ts⟩)
        (aset b.order_map id b.next_tok) tsf n).om id = some b.next_tok := by
      rw [matchLadder_omap_pres Side.BUY b.asks _ _ _ tsf n id
        (fresh_id_not_resting b.store b.next_tok Side.SELL b.asks b.order_map id
          ⟨id, Side.BUY, OrderType.LIMIT, price, qty, qty, ts⟩ hla hrin.2 hid)]
      exact alookup_aset_self _ _ _
    simp only [add_limit_order]
    by_cases hrem : (match_order
        { b with
          next_tok := b.next_tok + 1
          store := aset b.store b.next_tok ⟨id, Side.BUY, OrderType.LIMIT, price, qty, qty, ts⟩
          order_map := aset b.order_map id b.next_tok }
        ⟨id, Side.BUY, OrderType.LIMIT, price, qty, qty, ts⟩ tsf n).1.remaining_quantity = 0
    · simp only [hrem, if_true]
      refine ⟨?_, ?_, ?_, ?_, ?_⟩
      · simp [tokRec, alookup_aset_self, hrem]
      · intro h; simp at h
      · intro _
        exact alookup_aerase_self _ _
      · intro _ hcross
        exfalso
        have hnc := matchLadder_nocross Side.BUY
          ⟨id, Side.BUY, OrderType.LIMIT, price, qty, qty, ts⟩ b.asks
          (aset b.store b.next_tok ⟨id, Side.BUY, OrderType.LIMIT, price, qty, qty, ts⟩)
          (aset b.order_map id b.next_tok) tsf n hqz (by simp)
          (by intro pl hpl; exact Or.inl ⟨rfl, hcross pl hpl⟩)
        rw [hml.1, hnc] at hrem
        exact hqz hrem
      · intro h; simp at h
    · simp only [hrem, if_false]
      refine ⟨?_, ?_, ?_, ?_, ?_⟩
      · simp only [tokRec, alookup_aset_self, Option.getD_some]
        exact ⟨fun _ => Nat.pos_of_ne_zero hrem, fun _ => trivial⟩
      · intro _
        constructor
        · rw [hml.2.2.2.2.1]
          exact homid
        · simp only [nearLadder]
          rw [hml.2.1]
          obtain ⟨L0, hL0⟩ := findLevel_upsert_self cmpBid price
            (fun L => L.add_order b.next_tok (match_order
              { b with
                next_tok := b.next_tok + 1
                store := aset b.store b.next_tok
                  ⟨id, Side.BUY, OrderType.LIMIT, price, qty, qty, ts⟩
                order_map := aset b.order_map id b.next_tok }
              ⟨id, Side.BUY, OrderType.LIMIT, price, qty, qty, ts⟩ tsf n).1.remaining_quantity)
            b.bids
          refine ⟨_, hL0, ?_⟩
          simp [PriceLevel.add_order]
      · intro h; simp at h
      · intro _ hcross
        refine ⟨trivial, ?_⟩
        have hnc := matchLadder_nocross Side.BUY
          ⟨id, Side.BUY, OrderType.LIMIT, price, qty, qty, ts⟩ b.asks
          (aset b.store b.next_tok ⟨id, Side.BUY, OrderType.LIMIT, price, qty, qty, ts⟩)
          (aset b.order_map id b.next_tok) tsf n hqz (by simp)
          (by intro pl hpl; exact Or.inl ⟨rfl, hcross pl hpl⟩)
        rw [hml.2.2.2.2.2.1, hnc]
      · intro h; simp at h
  | SELL =>
    have hml := match_order_sell
      { b with
        next_tok := b.next_tok + 1
        store := aset b.store b.next_tok ⟨id, Side.SELL, OrderType.LIMIT, price, qty, qty, ts⟩
        order_map := aset b.order_map id b.next_tok }
      ⟨id, Side.SELL, OrderType.LIMIT, price, qty, qty, ts⟩ tsf n hqz rfl
    simp only at hml
    have homid : alookup (matchLadder Side.SELL
        ⟨id, Side.SELL, OrderType.LIMIT, price, qty, qty, ts⟩ b.bids
        (aset b.store b.next_tok ⟨id, Side.SELL, OrderType.LIMIT, price, qty, qty, ts⟩)
        (aset b.order_map id b.next_tok) tsf n).om id = some b.next_tok := by
      rw [matchLadder_omap_pres Side.SELL b.bids _ _ _ tsf n id
        (fresh_id_not_resting b.store b.next_tok Side.BUY b.bids b.order_map id
          ⟨id, Side.SELL, OrderType.LIMIT, price, qty, qty, ts⟩ hlb hrin.1 hid)]
      exact alookup_aset_self _ _ _
    simp only [add_limit_order]
    by_cases hrem : (match_order
        { b with
          next_tok := b.next_tok + 1
          store := aset b.store b.next_tok ⟨id, Side.SELL, OrderType.LIMIT, price, qty, qty, ts⟩
          order_map := aset b.order_map id b.next_tok }
        ⟨id, Side.SELL, OrderType.LIMIT, price, qty, qty, ts⟩ tsf n).1.remaining_quantity = 0
    · simp only [hrem, if_true]
      refine ⟨?_, ?_, ?_, ?_, ?_⟩
      · simp [tokRec, alookup_aset_self, hrem]
      · intro h; simp at h
      · intro _
        exact alookup_aerase_self _ _
      · intro h; simp at h
      · intro _ hcross
        exfalso
        have hnc := matchLadder_nocross Side.SELL
          ⟨id, Side.SELL, OrderType.LIMIT, price, qty, qty, ts⟩ b.bids
          (aset b.store b.next_tok ⟨id, Side.SELL, OrderType.LIMIT, price, qty, qty, ts⟩)
          (aset b.order_map id b.next_tok) tsf n hqz (by simp)
          (by intro pl hpl; exact Or.inr ⟨rfl, hcross pl hpl⟩)
        rw [hml.1, hnc] at hrem
        exact hqz hrem
    · simp only [hrem, if_false]
      refine ⟨?_, ?_, ?_, ?_, ?_⟩
      · simp only [tokRec, alookup_aset_self, Option.getD_some]
        exact ⟨fun _ => Nat.pos_of_ne_zero hrem, fun _ => trivial⟩
      · intro _
        constructor
        · rw [hml.2.2.2.2.1]
          exact homid
        · simp only [nearLadder]
          rw [hml.2.1]
          obtain ⟨L0, hL0⟩ := findLevel_upsert_self cmpAsk price
            (fun L => L.add_order b.next_tok (match_order
              { b with
                next_tok := b.next_tok + 1
                store := aset b.store b.next_tok
                  ⟨id, Side.SELL, OrderType.LIMIT, price, qty, qty, ts⟩
                order_map := aset b.order_map id b.next_tok }
              ⟨id, Side.SELL, OrderType.LIMIT, price, qty, qty, ts⟩ tsf n).1.remaining_quantity)
            b.asks
          refine ⟨_, hL0, ?_⟩
          simp [PriceLevel.add_order]
      · intro h; simp at h
      · intro h; simp at h
      · intro _ hcross
        refine ⟨trivial, ?_⟩
        have hnc := matchLadder_nocross Side.SELL
          ⟨id, Side.SELL, OrderType.LIMIT, price, qty, qty, ts⟩ b.bids
          (aset b.store b.next_tok ⟨id, Side.SELL, OrderType.LIMIT, price, qty, qty, ts⟩)
          (aset b.order_map id b.next_tok) tsf n hqz (by simp)
          (by intro pl hpl; exact Or.inr ⟨rfl, hcross pl hpl⟩)
        rw [hml.2.2.2.2.2.1, hnc]

/-- Witness for c3_add_limit_order at a concrete input: a non-crossing
limit BUY on the empty book. -/
theorem c3_add_limit_order_witness :
    ((add_limit_order book0 7 Side.BUY 100 5 0 czero 0).ok = true →
      alookup (add_limit_order book0 7 Side.BUY 100 5 0 czero 0).book.order_map 7 =
        some book0.next_tok ∧
      ∃ L, findLevel (nearLadder (add_limit_order book0 7 Side.BUY 100 5 0 czero 0).book
        Side.BUY) 100 = some L ∧ book0.next_tok ∈ L.queue) ∧
    (add_limit_order book0 7 Side.BUY 100 5 0 czero 0).ok = true := by
  have h := c3_add_limit_order book0 7 Side.BUY 100 5 0 czero 0 (by decide)
    (by decide) (by decide) (by rfl)
  exact ⟨h.2.1, (h.2.2.2.1 rfl (by intro pl hpl; simp [book0] at hpl)).1⟩

theorem findLevel_mem (l : Ladder) (p : Int) (L : PriceLevel)
    (h : findLevel l p = some L) : (p, L) ∈ l := by
  induction l with
  | nil => simp [findLevel] at h
  | cons e r ih =>
    obtain ⟨q, M⟩ := e
    by_cases hq : q = p
    · subst hq
      simp [findLevel] at h
      simp [h]
    · simp [findLevel, hq] at h
      exact List.mem_cons_of_mem _ (ih h)

theorem findLevel_none_of_all_ne (l : Ladder) (p : Int)
    (h : ∀ pl ∈ l, pl.1 ≠ p) : findLevel l p = none := by
  induction l with
  | nil => rfl
  | cons e r ih =>
    obtain ⟨q, M⟩ := e
    have hq := h (q, M) (List.mem_cons_self _ _)
    simp only [findLevel, if_neg hq]
    exact ih (fun pl hpl => h pl (List.mem_cons_of_mem _ hpl))

theorem sortedB_tail (cmp : Int → Int → Bool) (x : Int × PriceLevel) (l : Ladder)
    (h : sortedByB cmp (x :: l) = true) : sortedByB cmp l = true := by
  cases l with
  | nil => rfl
  | cons y r =>
    simp only [sortedByB, Bool.and_eq_true] at h
    exact h.2

theorem sortedB_all (cmp : Int → Int → Bool)
    (htr : ∀ a b c, cmp a b = true → cmp b c = true → cmp a c = true)
    (x : Int × PriceLevel) (l : Ladder) :
    sortedByB cmp (x :: l) = true → ∀ pl ∈ l, cmp x.1 pl.1 = true := by
  induction l generalizing x with
  | nil => intro _ pl hpl; simp at hpl
  | cons y r ih =>
    intro h pl hpl
    simp only [sortedByB, Bool.and_eq_true] at h
    rcases List.mem_cons.1 hpl with h1 | h2
    · subst h1; exact h.1
    · exact htr _ _ _ h.1 (ih y h.2 pl h2)

theorem cmpBid_trans (a b c : Int) (h1 : cmpBid a b = true) (h2 : cmpBid b c = true) :
    cmpBid a c = true := by
  simp only [cmpBid, decide_eq_true_eq] at *
  omega

theorem cmpAsk_trans (a b c : Int) (h1 : cmpAsk a b = true) (h2 : cmpAsk b c = true) :
    cmpAsk a c = true := by
  simp only [cmpAsk, decide_eq_true_eq] at *
  omega

theorem findLevel_eraseLevel_self (cmp : Int → Int → Bool)
    (htr : ∀ a b c, cmp a b = true → cmp b c = true → cmp a c = true)
    (hirr : ∀ a, cmp a a = false)
    (l : Ladder) (p : Int) (hs : sortedByB cmp l = true) :
    findLevel (eraseLevel l p) p = none := by
  induction l with
  | nil => rfl
  | cons e r ih =>
    obtain ⟨q, M⟩ := e
    by_cases hq : q = p
    · subst hq
      simp only [eraseLevel, if_pos rfl]
      refine findLevel_none_of_all_ne r q (fun pl hpl hh => ?_)
      have := sortedB_all cmp htr (q, M) r hs pl hpl
      rw [hh] at this
      rw [hirr q] at this
      exact Bool.false_ne_true this
    · simp only [eraseLevel, if_neg hq, findLevel, if_neg hq]
      exact ih (sortedB_tail cmp _ _ hs)

theorem findLevel_eraseLevel_ne (l : Ladder) (p q' : Int) (h : q' ≠ p) :
    findLevel (eraseLevel l p) q' = findLevel l q' := by
  induction l with
  | nil => rfl
  | cons e r ih =>
    obtain ⟨q, M⟩ := e
    by_cases hq : q = p
    · subst hq
      have : ¬ q = q' := fun hh => h hh.symm
      simp [eraseLevel, findLevel, this]
    · by_cases hq' : q = q'
      · simp [eraseLevel, hq, findLevel, hq', h]
      · simp [eraseLevel, hq, findLevel, hq', ih]

theorem findLevel_replaceLevel_self (l : Ladder) (p : Int) (L0 L' : PriceLevel)
    (h : findLevel l p = some L0) :
    findLevel (replaceLevel l p L') p = some L' := by
  induction l with
  | nil => simp [findLevel] at h
  | cons e r ih =>
    obtain ⟨q, M⟩ := e
    by_cases hq : q = p
    · subst hq
      simp [replaceLevel, findLevel]
    · simp only [findLevel, if_neg hq] at h
      simp [replaceLevel, hq, findLevel, ih h]

theorem findLevel_replaceLevel_ne (l : Ladder) (p q' : Int) (L' : PriceLevel)
    (h : q' ≠ p) :
    findLevel (replaceLevel l p L') q' = findLevel l q' := by
  induction l with
  | nil => rfl
  | cons e r ih =>
    obtain ⟨q, M⟩ := e
    by_cases hq : q = p
    · subst hq
      have : ¬ q = q' := fun hh => h hh.symm
      simp [replaceLevel, findLevel, this]
    · by_cases hq' : q = q'
      · simp [replaceLevel, hq, findLevel, hq', h]
      · simp [replaceLevel, hq, findLevel, hq', ih]

theorem removeTok_not_mem (q : List Nat) (tok : Nat) (hnd : q.Nodup) :
    tok ∉ removeTok q tok := by
  induction q with
  | nil => simp [removeTok]
  | cons t r ih =>
    by_cases ht : t = tok
    · subst ht
      simp only [removeTok, if_pos rfl]
      exact (List.nodup_cons.1 hnd).1
    · simp only [removeTok, if_neg ht]
      intro hmem
      rcases List.mem_cons.1 hmem with h1 | h2
      · exact ht h1.symm
      · exact ih (List.nodup_cons.1 hnd).2 h2

theorem cmpBid_irr (a : Int) : cmpBid a a = false := by simp [cmpBid]

theorem cmpAsk_irr (a : Int) : cmpAsk a a = false := by simp [cmpAsk]

theorem inLevelAt_spec (l : Ladder) (p : Int) (tok : Nat)
    (h : inLevelAt l p tok = true) :
    ∃ L, findLevel l p = some L ∧ tok ∈ L.queue := by
  unfold inLevelAt at h
  cases hf : findLevel l p with
  | none => rw [hf] at h; simp at h
  | some L =>
    rw [hf] at h
    exact ⟨L, rfl, by simpa using h⟩

/-- Claim C5 (confirmed).  On a well-formed book, cancel_order returns true
exactly when the id is live in the id index; on success the id is removed
from the index and the order's token is unlinked from the level at its price
on its side, the level being erased when it became empty and kept without
the token otherwise; on an unknown id the call returns false and the book is
returned unchanged. -/
theorem c5_cancel_order (b : OrderBook) (id : Nat) (hwf : WF b) :
    ((cancel_order b id).ok = true ↔ (alookup b.order_map id).isSome = true) ∧
    (alookup b.order_map id = none →
      (cancel_order b id).ok = false ∧ (cancel_order b id).book = b) ∧
    (∀ tok, alookup b.order_map id = some tok →
      alookup (cancel_order b id).book.order_map id = none ∧
      ∀ L, findLevel (nearLadder b (tokRec b.store tok).side)
          (tokRec b.store tok).price = some L →
        (removeTok L.queue tok = [] →
          findLevel (nearLadder (cancel_order b id).book (tokRec b.store tok).side)
            (tokRec b.store tok).price = none) ∧
        (removeTok L.queue tok ≠ [] →
          findLevel (nearLadder (cancel_order b id).book (tokRec b.store tok).side)
            (tokRec b.store tok).price =
            some (L.remove_order tok (tokRec b.store tok).remaining_quantity) ∧
          tok ∉ (L.remove_order tok (tokRec b.store tok).remaining_quantity).queue)) := by
  obtain ⟨hsb, hsa, hlb, hla, hmap, hrin⟩ := hwf
  cases hlk : alookup b.order_map id with
  | none =>
    refine ⟨?_, ?_, ?_⟩
    · simp [cancel_order, hlk]
    · intro _
      simp [cancel_order, hlk]
    · intro tok htok
      simp at htok
  | some tok0 =>
    have hmem := alookup_mem _ _ _ hlk
    obtain ⟨hlt, hlive, hidf, hinb, hina⟩ := hmap (id, tok0) hmem
    rw [tokLive] at hlive
    cases hst : alookup b.store tok0 with
    | none => rw [hst] at hlive; simp at hlive
    | some r =>
      have hrec : tokRec b.store tok0 = r := by simp [tokRec, hst]
      have hrid : r.id = id := by rw [← hrec]; exact hidf
      simp only [cancel_order, hlk, hst]
      refine ⟨by simp, ?_, ?_⟩
      · intro h
        simp at h
      · intro tok htok
        injection htok with he
        subst he
        cases hside : r.side with
        | BUY =>
          have hin := hinb (by rw [hrec, hside])
          rw [hrec] at hin
          simp only [remove_order_internal, hside, hrec]
          constructor
          · rw [hrid]
            exact alookup_aerase_self _ _
          · intro L hL
            simp only [nearLadder, hrec, hside] at hL ⊢
            simp only [hL]
            constructor
            · intro hq0
              rw [if_pos (show (L.remove_order tok0 r.remaining_quantity).queue = [] from hq0)]
              exact findLevel_eraseLevel_self cmpBid cmpBid_trans cmpBid_irr b.bids r.price hsb
            · intro hq0
              rw [if_neg (show ¬ (L.remove_order tok0 r.remaining_quantity).queue = [] from hq0)]
              refine ⟨findLevel_replaceLevel_self b.bids r.price L _ hL, ?_⟩
              have hmemb := findLevel_mem b.bids r.price L hL
              have hnd := (hlb (r.price, L) hmemb).2.2.1
              exact removeTok_not_mem L.queue tok0 hnd
        | SELL =>
          have hin := hina (by rw [hrec, hside])
          rw [hrec] at hin
          simp only [remove_order_internal, hside, hrec]
          constructor
          · rw [hrid]
            exact alookup_aerase_self _ _
          · intro L hL
            simp only [nearLadder, hrec, hside] at hL ⊢
            simp only [hL]
            constructor
            · intro hq0
              rw [if_pos (show (L.remove_order tok0 r.remaining_quantity).queue = [] from hq0)]
              exact findLevel_eraseLevel_self cmpAsk cmpAsk_trans cmpAsk_irr b.asks r.price hsa
            · intro hq0
              rw [if_neg (show ¬ (L.remove_order tok0 r.remaining_quantity).queue = [] from hq0)]
              refine ⟨findLevel_replaceLevel_self b.asks r.price L _ hL, ?_⟩
              have hmemb := findLevel_mem b.asks r.price L hL
              have hnd := (hla (r.price, L) hmemb).2.2.1
              exact removeTok_not_mem L.queue tok0 hnd

/-- Witness for c5_cancel_order at a concrete input: cancelling the only
resting order of a one-order book. -/
theorem c5_cancel_order_witness :
    ((cancel_order (runTrace [Op.limit 1 Side.BUY 10 5] czero).book 1).ok = true ↔
      (alookup (runTrace [Op.limit 1 Side.BUY 10 5] czero).book.order_map 1).isSome = true) ∧
    alookup (cancel_order (runTrace [Op.limit 1 Side.BUY 10 5] czero).book 1).book.order_map 1 =
      none := by
  have h := c5_cancel_order (runTrace [Op.limit 1 Side.BUY 10 5] czero).book 1 (by decide)
  exact ⟨h.1, (h.2.2 0 (by decide)).1⟩

theorem findLevel_upsert_found (cmp : Int → Int → Bool)
    (htr : ∀ a b c, cmp a b = true → cmp b c = true → cmp a c = true)
    (hirr : ∀ a, cmp a a = false)
    (l : Ladder) (p : Int) (f : PriceLevel → PriceLevel) (L0 : PriceLevel)
    (hs : sortedByB cmp l = true) (h : findLevel l p = some L0) :
    findLevel (upsertLevel cmp p f l) p = some (f L0) := by
  induction l with
  | nil => simp [findLevel] at h
  | cons e r ih =>
    obtain ⟨q, M⟩ := e
    by_cases hq : q = p
    · subst hq
      simp [findLevel] at h
      subst h
      simp [upsertLevel, findLevel]
    · simp only [findLevel, if_neg hq] at h
      by_cases hcmp : cmp p q
      · exfalso
        have hmem := findLevel_mem r p L0 h
        have hqp := sortedB_all cmp htr (q, M) r hs (p, L0) hmem
        have := htr p q p hcmp hqp
        rw [hirr p] at this
        exact Bool.false_ne_true this
      · simp only [upsertLevel, if_neg hq, hcmp, if_false, findLevel]
        exact ih (sortedB_tail cmp _ _ hs) h

theorem matchQueue_omap_sub (sd : Side) (q : List Nat) :
    ∀ inc tv cnt st om (tsf : Clock) n k,
      alookup (matchQueue sd inc q tv cnt st om tsf n).om k = alookup om k ∨
      alookup (matchQueue sd inc q tv cnt st om tsf n).om k = none := by
  induction q with
  | nil => intro inc tv cnt st om tsf n k; left; simp [matchQueue]
  | cons tok rest ih =>
    intro inc tv cnt st om tsf n k
    simp only [matchQueue]
    by_cases h0 : inc.remaining_quantity = 0
    · left; simp [h0]
    · simp only [h0, if_false]
      cases halk : alookup st tok with
      | none => exact ih inc tv cnt st om tsf n k
      | some r0 =>
        by_cases hz : r0.remaining_quantity - min inc.remaining_quantity r0.remaining_quantity = 0
        · simp only [reduce_quantity_rem, hz, if_true]
          rcases ih (inc.reduce_quantity (min inc.remaining_quantity r0.remaining_quantity))
            (u64sub tv 0) (cnt - 1)
            (aset st tok (r0.reduce_quantity (min inc.remaining_quantity r0.remaining_quantity)))
            (aerase om r0.id) tsf (n + 1) k with h | h
          · by_cases hk : k = r0.id
            · right
              subst hk
              rw [h, alookup_aerase_self]
            · left
              rw [h, alookup_aerase_ne _ _ _ hk]
          · right
            exact h
        · left; simp [hz]

theorem matchLadder_omap_sub (sd : Side) (ladder : Ladder) :
    ∀ inc st om (tsf : Clock) n k,
      alookup (matchLadder sd inc ladder st om tsf n).om k = alookup om k ∨
      alookup (matchLadder sd inc ladder st om tsf n).om k = none := by
  induction ladder with
  | nil => intro inc st om tsf n k; left; simp [matchLadder]
  | cons pl rest ih =>
    intro inc st om tsf n k
    obtain ⟨p, L⟩ := pl
    simp only [matchLadder]
    by_cases h0 : inc.remaining_quantity = 0
    · left; simp [h0]
    · simp only [h0, if_false]
      by_cases hc : inc.typ ≠ OrderType.MARKET ∧ crossStop sd inc.price p
      · left; simp [hc]
      · simp only [if_neg hc]
        have h1 := matchQueue_omap_sub sd L.queue inc L.total_volume L.order_count st om tsf n k
        by_cases hq : (matchQueue sd inc L.queue L.total_volume L.order_count st om tsf n).q = []
        · simp only [hq, if_true]
          rcases ih (matchQueue sd inc L.queue L.total_volume L.order_count st om tsf n).inc
            (matchQueue sd inc L.queue L.total_volume L.order_count st om tsf n).st
            (matchQueue sd inc L.queue L.total_volume L.order_count st om tsf n).om tsf
            (matchQueue sd inc L.queue L.total_volume L.order_count st om tsf n).n k with h | h
          · rw [h]
            exact h1
          · right; exact h
        · simp only [hq, if_false]
          exact h1

/-- Claim C8 as amended (corrected).  The source performs no input
validation and raises no error: a zero-quantity limit submission is
processed normally (the record is allocated, registered, found filled,
dropped again — the call returns false, the ladders and the id index are
left as before, no trade is emitted, and a record_add sample is still
taken); a zero-quantity market submission likewise returns 0 and changes
neither ladder nor the id index; and a limit order with a non-positive
price is accepted and rests in the ladder like any other order. -/
theorem c8_no_validation (b : OrderBook) (id : Nat) (sd : Side) (price : Int)
    (qty ts : Nat) (tsf : Clock) (n : Nat) (hid : alookup b.order_map id = none) :
    ((add_limit_order b id sd price 0 ts tsf n).ok = false ∧
     (add_limit_order b id sd price 0 ts tsf n).book.bids = b.bids ∧
     (add_limit_order b id sd price 0 ts tsf n).book.asks = b.asks ∧
     (∀ i, alookup (add_limit_order b id sd price 0 ts tsf n).book.order_map i =
        alookup b.order_map i) ∧
     (add_limit_order b id sd price 0 ts tsf n).trades = [] ∧
     (add_limit_order b id sd price 0 ts tsf n).book.m_adds = b.m_adds + 1) ∧
    ((add_market_order b id sd 0 ts tsf n).filled = 0 ∧
     (add_market_order b id sd 0 ts tsf n).book.bids = b.bids ∧
     (add_market_order b id sd 0 ts tsf n).book.asks = b.asks ∧
     (∀ i, alookup (add_market_order b id sd 0 ts tsf n).book.order_map i =
        alookup b.order_map i) ∧
     (add_market_order b id sd 0 ts tsf n).trades = []) ∧
    (price ≤ 0 → 0 < qty → sd = Side.BUY → b.asks = [] →
      (add_limit_order b id sd price qty ts tsf n).ok = true ∧
      ∃ L, findLevel (add_limit_order b id sd price qty ts tsf n).book.bids price =
        some L ∧ b.next_tok ∈ L.queue) := by
  have hmapid : ∀ i, alookup (aerase (aset b.order_map id b.next_tok) id) i =
      alookup b.order_map i := by
    intro i
    by_cases hi : i = id
    · subst hi
      rw [alookup_aerase_self, hid]
    · rw [alookup_aerase_ne _ _ _ hi, alookup_aset_ne _ _ _ _ hi]
  refine ⟨?_, ?_, ?_⟩
  · simp only [add_limit_order, match_order, if_pos rfl]
    exact ⟨rfl, rfl, rfl, hmapid, rfl, rfl⟩
  · simp only [add_market_order, match_order, if_pos rfl]
    exact ⟨rfl, rfl, rfl, hmapid, rfl⟩
  · intro _ hq hsd hask
    subst hsd
    have hqz : qty ≠ 0 := Nat.pos_iff_ne_zero.1 hq
    have hml := match_order_buy
      { b with
        next_tok := b.next_tok + 1
        store := aset b.store b.next_tok ⟨id, Side.BUY, OrderType.LIMIT, price, qty, qty, ts⟩
        order_map := aset b.order_map id b.next_tok }
      ⟨id, Side.BUY, OrderType.LIMIT, price, qty, qty, ts⟩ tsf n hqz rfl
    simp only at hml
    have hrem : ¬ (match_order
        { b with
          next_tok := b.next_tok + 1
          store := aset b.store b.next_tok ⟨id, Side.BUY, OrderType.LIMIT, price, qty, qty, ts⟩
          order_map := aset b.order_map id b.next_tok }
        ⟨id, Side.BUY, OrderType.LIMIT, price, qty, qty, ts⟩ tsf n).1.remaining_quantity = 0 := by
      rw [hml.1, hask]
      simpa [matchLadder] using hqz
    simp only [add_limit_order, hrem, if_false]
    refine ⟨trivial, ?_⟩
    rw [hml.2.1]
    obtain ⟨L0, hL0⟩ := findLevel_upsert_self cmpBid price
      (fun L => L.add_order b.next_tok (match_order
        { b with
          next_tok := b.next_tok + 1
          store := aset b.store b.next_tok ⟨id, Side.BUY, OrderType.LIMIT, price, qty, qty, ts⟩
          order_map := aset b.order_map id b.next_tok }
        ⟨id, Side.BUY, OrderType.LIMIT, price, qty, qty, ts⟩ tsf n).1.remaining_quantity)
      b.bids
    refine ⟨_, hL0, ?_⟩
    simp [PriceLevel.add_order]

/-- Witness for c8_no_validation at a concrete input. -/
theorem c8_no_validation_witness :
    (add_limit_order book0 1 Side.BUY 10 0 0 czero 0).ok = false ∧
    (add_market_order book0 1 Side.BUY 0 0 czero 0).filled = 0 ∧
    ((add_limit_order book0 1 Side.BUY (-5) 10 0 czero 0).ok = true ∧
      ∃ L, findLevel (add_limit_order book0 1 Side.BUY (-5) 10 0 czero 0).book.bids (-5) =
        some L ∧ book0.next_tok ∈ L.queue) := by
  have h := c8_no_validation book0 1 Side.BUY (-5) 10 0 czero 0 (by rfl)
  exact ⟨(c8_no_validation book0 1 Side.BUY 10 0 0 czero 0 (by rfl)).1.1, h.2.1.1,
    h.2.2 (by decide) (by decide) rfl rfl⟩

/-- No level of the ladder has an empty queue. -/
def noEmptyLadder (l : Ladder) : Prop := ∀ pl ∈ l, pl.2.queue ≠ []

/-- Neither ladder of the book has an empty level. -/
def noEmpty (b : OrderBook) : Prop := noEmptyLadder b.bids ∧ noEmptyLadder b.asks

theorem matchLadder_noempty (sd : Side) (ladder : Ladder) :
    ∀ inc st om (tsf : Clock) n, noEmptyLadder ladder →
      noEmptyLadder (matchLadder sd inc ladder st om tsf n).ladder := by
  induction ladder with
  | nil => intro inc st om tsf n h; simp [matchLadder]; exact h
  | cons pl rest ih =>
    intro inc st om tsf n h
    obtain ⟨p, L⟩ := pl
    simp only [matchLadder]
    by_cases h0 : inc.remaining_quantity = 0
    · simpa [h0] using h
    · simp only [h0, if_false]
      by_cases hc : inc.typ ≠ OrderType.MARKET ∧ crossStop sd inc.price p
      · simpa [hc] using h
      · simp only [if_neg hc]
        by_cases hq : (matchQueue sd inc L.queue L.total_volume L.order_count st om tsf n).q = []
        · simp only [hq, if_true]
          exact ih _ _ _ tsf _ (fun pl2 hpl2 => h pl2 (List.mem_cons_of_mem _ hpl2))
        · simp only [hq, if_false]
          intro pl2 hpl2
          rcases List.mem_cons.1 hpl2 with h1 | h2
          · rw [h1]
            exact hq
          · exact h pl2 (List.mem_cons_of_mem _ h2)

theorem upsert_noempty (cmp : Int → Int → Bool) (p : Int)
    (f : PriceLevel → PriceLevel) (l : Ladder)
    (hf : ∀ L, (f L).queue ≠ []) (h : noEmptyLadder l) :
    noEmptyLadder (upsertLevel cmp p f l) := by
  induction l with
  | nil =>
    intro pl hpl
    simp [upsertLevel] at hpl
    rw [hpl]
    exact hf _
  | cons e r ih =>
    obtain ⟨q, L⟩ := e
    by_cases hq : q = p
    · intro pl hpl
      simp only [upsertLevel, if_pos hq] at hpl
      rcases List.mem_cons.1 hpl with h1 | h2
      · rw [h1]; exact hf _
      · exact h pl (List.mem_cons_of_mem _ h2)
    · by_cases hcmp : cmp p q
      · intro pl hpl
        simp only [upsertLevel, if_neg hq, hcmp, if_true] at hpl
        rcases List.mem_cons.1 hpl with h1 | h2
        · rw [h1]; exact hf _
        · exact h pl h2
      · intro pl hpl
        simp only [upsertLevel, if_neg hq, hcmp, if_false] at hpl
        rcases List.mem_cons.1 hpl with h1 | h2
        · exact h pl (h1 ▸ List.mem_cons_self _ _)
        · exact ih (fun pl2 hpl2 => h pl2 (List.mem_cons_of_mem _ hpl2)) pl h2

theorem mem_of_mem_eraseLevel (l : Ladder) (p : Int) (pl : Int × PriceLevel)
    (h : pl ∈ eraseLevel l p) : pl ∈ l := by
  induction l with
  | nil => simpa [eraseLevel] using h
  | cons e r ih =>
    obtain ⟨q, L⟩ := e
    by_cases hq : q = p
    · simp only [eraseLevel, if_pos hq] at h
      exact List.mem_cons_of_mem _ h
    · simp only [eraseLevel, if_neg hq] at h
      rcases List.mem_cons.1 h with h1 | h2
      · exact h1 ▸ List.mem_cons_self _ _
      · exact List.mem_cons_of_mem _ (ih h2)

theorem mem_of_mem_replaceLevel (l : Ladder) (p : Int) (L' : PriceLevel)
    (pl : Int × PriceLevel) (h : pl ∈ replaceLevel l p L') :
    pl ∈ l ∨ pl = (p, L') := by
  induction l with
  | nil => simp [replaceLevel] at h
  | cons e r ih =>
    obtain ⟨q, L⟩ := e
    by_cases hq : q = p
    · simp only [replaceLevel, if_pos hq] at h
      rcases List.mem_cons.1 h with h1 | h2
      · right; exact h1
      · left; exact List.mem_cons_of_mem _ h2
    · simp only [replaceLevel, if_neg hq] at h
      rcases List.mem_cons.1 h with h1 | h2
      · left; exact h1 ▸ List.mem_cons_self _ _
      · rcases ih h2 with h3 | h3
        · left; exact List.mem_cons_of_mem _ h3
        · right; exact h3

theorem remove_order_internal_noempty (b : OrderBook) (tok : Nat) (r : OrderRec)
    (h : noEmpty b) : noEmpty (remove_order_internal b tok r) := by
  have hupd : ∀ l : Ladder, noEmptyLadder l → noEmptyLadder
      (match findLevel l r.price with
       | none => l
       | some L =>
         if (L.remove_order tok r.remaining_quantity).queue = [] then eraseLevel l r.price
         else replaceLevel l r.price (L.remove_order tok r.remaining_quantity)) := by
    intro l hl
    cases hf : findLevel l r.price with
    | none => exact hl
    | some L =>
      by_cases hq : (L.remove_order tok r.remaining_quantity).queue = []
      · simp only [hq, if_true]
        exact fun pl hpl => hl pl (mem_of_mem_eraseLevel l r.price pl hpl)
      · simp only [hq, if_false]
        intro pl hpl
        rcases mem_of_mem_replaceLevel l r.price _ pl hpl with h1 | h1
        · exact hl pl h1
        · rw [h1]
          exact hq
  unfold remove_order_internal
  cases r.side
  · exact ⟨hupd b.bids h.1, h.2⟩
  · exact ⟨h.1, hupd b.asks h.2⟩

theorem match_order_noempty (b : OrderBook) (inc : OrderRec) (tsf : Clock) (n : Nat)
    (h : noEmpty b) : noEmpty (match_order b inc tsf n).2.1 := by
  unfold match_order
  by_cases h0 : inc.remaining_quantity = 0
  · simpa [h0] using h
  · cases hs : inc.side
    · simp only [h0, if_false]
      constructor
      · have := h.1
        split <;> exact this
      · have := matchLadder_noempty Side.BUY b.asks inc b.store b.order_map tsf n h.2
        split <;> exact this
    · simp only [h0, if_false]
      constructor
      · have := matchLadder_noempty Side.SELL b.bids inc b.store b.order_map tsf n h.1
        split <;> exact this
      · have := h.2
        split <;> exact this

theorem add_limit_order_noempty (b : OrderBook) (id : Nat) (sd : Side) (price : Int)
    (qty ts : Nat) (tsf : Clock) (n : Nat) (h : noEmpty b) :
    noEmpty (add_limit_order b id sd price qty ts tsf n).book := by
  simp only [add_limit_order]
  have hmid : noEmpty (match_order
      { b with
        next_tok := b.next_tok + 1
        store := aset b.store b.next_tok ⟨id, sd, OrderType.LIMIT, price, qty, qty, ts⟩
        order_map := aset b.order_map id b.next_tok }
      ⟨id, sd, OrderType.LIMIT, price, qty, qty, ts⟩ tsf n).2.1 :=
    match_order_noempty _ _ tsf n ⟨h.1, h.2⟩
  by_cases hrem : (match_order
      { b with
        next_tok := b.next_tok + 1
        store := aset b.store b.next_tok ⟨id, sd, OrderType.LIMIT, price, qty, qty, ts⟩
        order_map := aset b.order_map id b.next_tok }
      ⟨id, sd, OrderType.LIMIT, price, qty, qty, ts⟩ tsf n).1.remaining_quantity = 0
  · simp only [hrem, if_true]
    exact hmid
  · simp only [hrem, if_false]
    cases sd
    · refine ⟨?_, hmid.2⟩
      exact upsert_noempty cmpBid price _ _ (fun L => by simp [PriceLevel.add_order]) hmid.1
    · refine ⟨hmid.1, ?_⟩
      exact upsert_noempty cmpAsk price _ _ (fun L => by simp [PriceLevel.add_order]) hmid.2

theorem add_market_order_noempty (b : OrderBook) (id : Nat) (sd : Side)
    (qty ts : Nat) (tsf : Clock) (n : Nat) (h : noEmpty b) :
    noEmpty (add_market_order b id sd qty ts tsf n).book := by
  simp only [add_market_order]
  exact match_order_noempty _ _ tsf n ⟨h.1, h.2⟩

theorem cancel_order_noempty (b : OrderBook) (id : Nat) (h : noEmpty b) :
    noEmpty (cancel_order b id).book := by
  unfold cancel_order
  cases hlk : alookup b.order_map id with
  | none => simp only [hlk]; exact h
  | some tok =>
    simp only [hlk]
    cases hst : alookup b.store tok with
    | none => simp only [hst]; exact h
    | some r =>
      simp only [hst]
      exact remove_order_internal_noempty b tok r h

theorem runFrom_noempty (ops : List Op) :
    ∀ b (clock : Clock) cur, noEmpty b → noEmpty (runFrom b clock cur ops).book := by
  induction ops with
  | nil => intro b clock cur h; exact h
  | cons op rest ih =>
    intro b clock cur h
    simp only [runFrom]
    refine ih _ clock _ ?_
    cases op with
    | limit id sd p q => exact add_limit_order_noempty b id sd p q _ _ 0 h
    | market id sd q => exact add_market_order_noempty b id sd q _ _ 0 h
    | cancel id => exact cancel_order_noempty b id h

/-- Claim C7 (confirmed).  After any sequence of public operations run from
a fresh book, neither ladder contains an empty price level: every level
present in the final bids or asks has a nonempty queue, so the depth
queries count only nonempty levels and best_bid and best_ask only report
prices whose levels hold resting orders. -/
theorem c7_no_empty_levels (ops : List Op) (clock : Clock) :
    (∀ pl ∈ (runTrace ops clock).book.bids, pl.2.queue ≠ []) ∧
    (∀ pl ∈ (runTrace ops clock).book.asks, pl.2.queue ≠ []) := by
  have h := runFrom_noempty ops book0 clock 0 ⟨by intro pl hpl; simp [book0] at hpl,
    by intro pl hpl; simp [book0] at hpl⟩
  exact ⟨h.1, h.2⟩

/-- Witness for c7_no_empty_levels at a concrete trace and level. -/
theorem c7_no_empty_levels_witness :
    ((10 : Int), (⟨[0], 5, 1⟩ : PriceLevel)).2.queue ≠ [] := by
  exact (c7_no_empty_levels [Op.limit 1 Side.BUY 10 5] czero).1
    ((10 : Int), (⟨[0], 5, 1⟩ : PriceLevel)) (by decide)

/-- The id of the resting order in a trade: the aggressor side determines
which of the two ids belongs to the resting order. -/
def restingId (sd : Side) (t : Trade) : Nat :=
  match sd with
  | Side.BUY => t.sell_order_id
  | Side.SELL => t.buy_order_id

@[simp] theorem restingId_mkTrade (sd : Side) (inc rest : OrderRec) (p : Int)
    (q ts : Nat) : restingId sd (mkTrade sd inc rest p q ts) = rest.id := by
  cases sd <;> rfl

/-- The comparator of the ladder swept by an aggressor of the given side. -/
def cmpOf (sd : Side) : Int → Int → Bool :=
  match sd with
  | Side.BUY => cmpAsk
  | Side.SELL => cmpBid

/-- Weak ladder order on prices for the given aggressor side: ascending for
a BUY aggressor, descending for a SELL aggressor. -/
def ladLE (sd : Side) (a b : Int) : Prop :=
  match sd with
  | Side.BUY => a ≤ b
  | Side.SELL => b ≤ a

theorem cmpOf_trans (sd : Side) (a b c : Int) (h1 : cmpOf sd a b = true)
    (h2 : cmpOf sd b c = true) : cmpOf sd a c = true := by
  cases sd
  · exact cmpAsk_trans a b c h1 h2
  · exact cmpBid_trans a b c h1 h2

theorem cmpOf_irr (sd : Side) (a : Int) : cmpOf sd a a = false := by
  cases sd
  · exact cmpAsk_irr a
  · exact cmpBid_irr a

theorem ladLE_of_cmp (sd : Side) (a b : Int) (h : cmpOf sd a b = true) :
    ladLE sd a b := by
  cases sd <;> simp [cmpOf, cmpAsk, cmpBid] at h <;> simp [ladLE] <;> omega

theorem ladLE_of_eq (sd : Side) (a b : Int) (h : a = b) : ladLE sd a b := by
  cases sd <;> simp [ladLE, h]

theorem pairwise_of_const {α : Type} (R : α → α → Prop) (l : List α)
    (p : α → Prop) (hall : ∀ t ∈ l, p t) (hR : ∀ a b, p a → p b → R a b) :
    List.Pairwise R l := by
  induction l with
  | nil => exact List.Pairwise.nil
  | cons x r ih =>
    refine List.Pairwise.cons ?_ (ih (fun t ht => hall t (List.mem_cons_of_mem _ ht)))
    intro y hy
    exact hR x y (hall x (List.mem_cons_self _ _)) (hall y (List.mem_cons_of_mem _ hy))

theorem matchQueue_trades_price (sd : Side) (q : List Nat) (p : Int) :
    ∀ inc tv cnt st om (tsf : Clock) n,
      (∀ tok ∈ q, ∀ r, alookup st tok = some r → r.price = p) →
      ∀ t ∈ (matchQueue sd inc q tv cnt st om tsf n).trades, t.price = p := by
  induction q with
  | nil => intro inc tv cnt st om tsf n _ t ht; simp [matchQueue] at ht
  | cons tok rest ih =>
    intro inc tv cnt st om tsf n hps t ht
    simp only [matchQueue] at ht
    by_cases h0 : inc.remaining_quantity = 0
    · simp [h0] at ht
    · simp only [h0, if_false] at ht
      cases halk : alookup st tok with
      | none =>
        rw [halk] at ht
        exact ih inc tv cnt st om tsf n
          (fun t2 ht2 => hps t2 (List.mem_cons_of_mem _ ht2)) t ht
      | some r0 =>
        have hp0 : r0.price = p := hps tok (List.mem_cons_self _ _) r0 halk
        rw [halk] at ht
        by_cases hz : r0.remaining_quantity - min inc.remaining_quantity r0.remaining_quantity = 0
        · simp only [reduce_quantity_rem, hz, if_true] at ht
          simp only [List.mem_cons] at ht
          rcases ht with h1 | h2
          · rw [h1]
            simp [hp0]
          · refine ih _ _ _ _ _ tsf _ ?_ t h2
            intro t2 ht2 r2 hr2
            by_cases he : t2 = tok
            · subst he
              rw [alookup_aset_self] at hr2
              injection hr2 with hr3
              rw [← hr3]
              simpa using hp0
            · rw [alookup_aset_ne _ _ _ _ he] at hr2
              exact hps t2 (List.mem_cons_of_mem _ ht2) r2 hr2
        · simp only [reduce_quantity_rem, hz, if_false] at ht
          simp only [List.mem_cons, List.not_mem_nil, or_false] at ht
          rw [ht]
          simp [hp0]

theorem matchQueue_trades_ids (sd : Side) (q : List Nat) :
    ∀ inc tv cnt st om (tsf : Clock) n,
      (∀ tok ∈ q, tokLive st tok) →
      (matchQueue sd inc q tv cnt st om tsf n).trades.map (restingId sd) =
        (q.map (fun tok => (tokRec st tok).id)).take
          (matchQueue sd inc q tv cnt st om tsf n).trades.length := by
  induction q with
  | nil => intro inc tv cnt st om tsf n _; simp [matchQueue]
  | cons tok rest ih =>
    intro inc tv cnt st om tsf n hlive
    simp only [matchQueue]
    by_cases h0 : inc.remaining_quantity = 0
    · simp [h0]
    · simp only [h0, if_false]
      cases halk : alookup st tok with
      | none =>
        have := hlive tok (List.mem_cons_self _ _)
        rw [tokLive, halk] at this
        simp at this
      | some r0 =>
        have hr0 : tokRec st tok = r0 := by simp [tokRec, halk]
        by_cases hz : r0.remaining_quantity - min inc.remaining_quantity r0.remaining_quantity = 0
        · simp only [reduce_quantity_rem, hz, if_true]
          have hmeta : ∀ t2, (tokRec (aset st tok
              (r0.reduce_quantity (min inc.remaining_quantity r0.remaining_quantity))) t2).id =
              (tokRec st t2).id ∧
              tokLive (aset st tok
                (r0.reduce_quantity (min inc.remaining_quantity r0.remaining_quantity))) t2 =
              tokLive st t2 := by
            intro t2
            have := aset_keeps_meta st tok r0
              (r0.reduce_quantity (min inc.remaining_quantity r0.remaining_quantity)) halk
              (metaOf_reduce _ _) t2
            exact ⟨metaOf_id this.2, by rw [tokLive, tokLive, this.1]⟩
          have hrec := ih (inc.reduce_quantity (min inc.remaining_quantity r0.remaining_quantity))
            (u64sub tv 0) (cnt - 1)
            (aset st tok (r0.reduce_quantity (min inc.remaining_quantity r0.remaining_quantity)))
            (aerase om r0.id) tsf (n + 1) ?hl
          · simp only [List.map_cons, restingId_mkTrade, List.length_cons]
            rw [hrec]
            have hmap : rest.map (fun t2 => (tokRec (aset st tok
                (r0.reduce_quantity (min inc.remaining_quantity r0.remaining_quantity))) t2).id) =
                rest.map (fun t2 => (tokRec st t2).id) :=
              List.map_congr_left (fun t2 _ => (hmeta t2).1)
            rw [hmap, hr0]
            simp [List.take_succ_cons]
          · intro t2 ht2
            rw [(hmeta t2).2]
            exact hlive t2 (List.mem_cons_of_mem _ ht2)
        · simp only [reduce_quantity_rem, hz, if_false]
          simp [restingId_mkTrade, hr0]

theorem matchLadder_trades (sd : Side) (ladder : Ladder) :
    ∀ inc st om (tsf : Clock) n,
      sortedByB (cmpOf sd) ladder = true →
      (∀ pl ∈ ladder, ∀ tok ∈ pl.2.queue,
        tokLive st tok ∧ (tokRec st tok).price = pl.1) →
      (∀ t ∈ (matchLadder sd inc ladder st om tsf n).trades,
        ∃ pl ∈ ladder, t.price = pl.1) ∧
      List.Pairwise (fun t1 t2 : Trade => ladLE sd t1.price t2.price)
        (matchLadder sd inc ladder st om tsf n).trades ∧
      (inc.typ ≠ OrderType.MARKET →
        ∀ t ∈ (matchLadder sd inc ladder st om tsf n).trades,
          ¬ crossStop sd inc.price t.price) ∧
      (∀ p L, findLevel ladder p = some L →
        ((matchLadder sd inc ladder st om tsf n).trades.filter
          (fun t => decide (t.price = p))).map (restingId sd) =
        (L.queue.map (fun tok => (tokRec st tok).id)).take
          ((matchLadder sd inc ladder st om tsf n).trades.filter
            (fun t => decide (t.price = p))).length) ∧
      (∀ p, findLevel ladder p = none →
        (matchLadder sd inc ladder st om tsf n).trades.filter
          (fun t => decide (t.price = p)) = []) := by
  induction ladder with
  | nil =>
    intro inc st om tsf n _ _
    refine ⟨?_, ?_, ?_, ?_, ?_⟩ <;> simp [matchLadder, findLevel]
  | cons pl rest ih =>
    intro inc st om tsf n hsort hlv
    obtain ⟨p0, L0⟩ := pl
    have hlv0 := hlv (p0, L0) (List.mem_cons_self _ _)
    have hcmp_all := sortedB_all (cmpOf sd) (cmpOf_trans sd) (p0, L0) rest hsort
    have hrest_ne : ∀ pl2 ∈ rest, pl2.1 ≠ p0 := by
      intro pl2 hpl2 hh
      have := hcmp_all pl2 hpl2
      rw [hh] at this
      rw [cmpOf_irr sd p0] at this
      exact Bool.false_ne_true this
    simp only [matchLadder]
    by_cases h0 : inc.remaining_quantity = 0
    · refine ⟨?_, ?_, ?_, ?_, ?_⟩ <;> simp [h0]
    · simp only [h0, if_false]
      by_cases hc : inc.typ ≠ OrderType.MARKET ∧ crossStop sd inc.price p0
      · refine ⟨?_, ?_, ?_, ?_, ?_⟩ <;> simp [hc]
      · simp only [if_neg hc]
        have htp1 := matchQueue_trades_price sd L0.queue p0 inc L0.total_volume
          L0.order_count st om tsf n ?hps
        case hps =>
          intro tok htok r hr
          have h2 := (hlv0 tok htok).2
          rw [tokRec, hr] at h2
          simpa using h2
        have hids1 := matchQueue_trades_ids sd L0.queue inc L0.total_volume
          L0.order_count st om tsf n (fun tok htok => (hlv0 tok htok).1)
        by_cases hq : (matchQueue sd inc L0.queue L0.total_volume L0.order_count st om tsf n).q = []
        · simp only [hq, if_true]
          have hmeta := matchQueue_store_meta sd L0.queue inc L0.total_volume
            L0.order_count st om tsf n
          have hids_pres : ∀ t2, (tokRec (matchQueue sd inc L0.queue L0.total_volume
              L0.order_count st om tsf n).st t2).id = (tokRec st t2).id :=
            fun t2 => metaOf_id (hmeta t2).2
          have hlv' : ∀ pl2 ∈ rest, ∀ tok ∈ pl2.2.queue,
              tokLive (matchQueue sd inc L0.queue L0.total_volume L0.order_count st om tsf n).st tok ∧
              (tokRec (matchQueue sd inc L0.queue L0.total_volume L0.order_count st om tsf n).st tok).price = pl2.1 := by
            intro pl2 hpl2 tok htok
            have h2 := hlv pl2 (List.mem_cons_of_mem _ hpl2) tok htok
            constructor
            · rw [tokLive, (hmeta tok).1]
              exact h2.1
            · rw [metaOf_price (hmeta tok).2]
              exact h2.2
          have IH := ih (matchQueue sd inc L0.queue L0.total_volume L0.order_count st om tsf n).inc
            (matchQueue sd inc L0.queue L0.total_volume L0.order_count st om tsf n).st
            (matchQueue sd inc L0.queue L0.total_volume L0.order_count st om tsf n).om tsf
            (matchQueue sd inc L0.queue L0.total_volume L0.order_count st om tsf n).n
            (sortedB_tail (cmpOf sd) _ _ hsort) hlv'
          have hfields := matchQueue_inc_fields sd L0.queue inc L0.total_volume
            L0.order_count st om tsf n
          refine ⟨?_, ?_, ?_, ?_, ?_⟩
          · intro t ht
            simp only [List.mem_append] at ht
            rcases ht with h1 | h2
            · exact ⟨(p0, L0), List.mem_cons_self _ _, htp1 t h1⟩
            · obtain ⟨pl2, hpl2, hp2⟩ := IH.1 t h2
              exact ⟨pl2, List.mem_cons_of_mem _ hpl2, hp2⟩
          · rw [List.pairwise_append]
            refine ⟨?_, IH.2.1, ?_⟩
            · exact pairwise_of_const _ _ (fun t => t.price = p0) htp1
                (fun a b ha hb => ladLE_of_eq sd _ _ (ha.trans hb.symm))
            · intro t1 h1 t2 h2
              obtain ⟨pl2, hpl2, hp2⟩ := IH.1 t2 h2
              rw [htp1 t1 h1, hp2]
              exact ladLE_of_cmp sd _ _ (hcmp_all pl2 hpl2)
          · intro hlim t ht hcs
            simp only [List.mem_append] at ht
            rcases ht with h1 | h2
            · rw [htp1 t h1] at hcs
              exact hc ⟨hlim, hcs⟩
            · refine IH.2.2.1 ?_ t h2 ?_
              · rw [hfields.2.2.1]
                exact hlim
              · rw [hfields.2.2.2.1]
                exact hcs
          · intro p L hfind
            by_cases hp : p0 = p
            · subst hp
              have hLL : L = L0 := by
                simp [findLevel] at hfind
                exact hfind.symm
              subst hLL
              have hfa : (matchQueue sd inc L.queue L.total_volume L.order_count st om tsf n).trades.filter
                  (fun t => decide (t.price = p0)) =
                  (matchQueue sd inc L.queue L.total_volume L.order_count st om tsf n).trades := by
                refine List.filter_eq_self.mpr ?_
                intro t ht
                simp [htp1 t ht]
              have hfb : (matchLadder sd
                  (matchQueue sd inc L.queue L.total_volume L.order_count st om tsf n).inc rest
                  (matchQueue sd inc L.queue L.total_volume L.order_count st om tsf n).st
                  (matchQueue sd inc L.queue L.total_volume L.order_count st om tsf n).om tsf
                  (matchQueue sd inc L.queue L.total_volume L.order_count st om tsf n).n).trades.filter
                  (fun t => decide (t.price = p0)) = [] := by
                refine List.filter_eq_nil_iff.mpr ?_
                intro t ht
                obtain ⟨pl2, hpl2, hp2⟩ := IH.1 t ht
                simp only [decide_eq_true_eq]
                rw [hp2]
                exact hrest_ne pl2 hpl2
              simp only [List.filter_append, hfa, hfb, List.append_nil]
              exact hids1
            · simp only [findLevel, if_neg hp] at hfind
              have hfa : (matchQueue sd inc L0.queue L0.total_volume L0.order_count st om tsf n).trades.filter
                  (fun t => decide (t.price = p)) = [] := by
                refine List.filter_eq_nil_iff.mpr ?_
                intro t ht
                simp only [decide_eq_true_eq]
                rw [htp1 t ht]
                exact fun hh => hp hh
              have hmap : L.queue.map (fun tok => (tokRec (matchQueue sd inc L0.queue
                  L0.total_volume L0.order_count st om tsf n).st tok).id) =
                  L.queue.map (fun tok => (tokRec st tok).id) :=
                List.map_congr_left (fun t2 _ => hids_pres t2)
              have := IH.2.2.2.1 p L hfind
              rw [hmap] at this
              simp only [List.filter_append, hfa, List.nil_append]
              exact this
          · intro p hfind
            by_cases hp : p0 = p
            · subst hp
              simp [findLevel] at hfind
            · simp only [findLevel, if_neg hp] at hfind
              have hfa : (matchQueue sd inc L0.queue L0.total_volume L0.order_count st om tsf n).trades.filter
                  (fun t => decide (t.price = p)) = [] := by
                refine List.filter_eq_nil_iff.mpr ?_
                intro t ht
                simp only [decide_eq_true_eq]
                rw [htp1 t ht]
                exact fun hh => hp hh
              simp only [List.filter_append, hfa, List.nil_append]
              exact IH.2.2.2.2 p hfind
        · simp only [hq, if_false]
          refine ⟨?_, ?_, ?_, ?_, ?_⟩
          · intro t ht
            exact ⟨(p0, L0), List.mem_cons_self _ _, htp1 t ht⟩
          · exact pairwise_of_const _ _ (fun t => t.price = p0) htp1
              (fun a b ha hb => ladLE_of_eq sd _ _ (ha.trans hb.symm))
          · intro hlim t ht hcs
            rw [htp1 t ht] at hcs
            exact hc ⟨hlim, hcs⟩
          · intro p L hfind
            by_cases hp : p0 = p
            · subst hp
              have hLL : L = L0 := by
                simp [findLevel] at hfind
                exact hfind.symm
              subst hLL
              have hfa : (matchQueue sd inc L.queue L.total_volume L.order_count st om tsf n).trades.filter
                  (fun t => decide (t.price = p0)) =
                  (matchQueue sd inc L.queue L.total_volume L.order_count st om tsf n).trades := by
                refine List.filter_eq_self.mpr ?_
                intro t ht
                simp [htp1 t ht]
              rw [hfa]
              exact hids1
            · simp only [findLevel, if_neg hp] at hfind
              have hfa : (matchQueue sd inc L0.queue L0.total_volume L0.order_count st om tsf n).trades.filter
                  (fun t => decide (t.price = p)) = [] := by
                refine List.filter_eq_nil_iff.mpr ?_
                intro t ht
                simp only [decide_eq_true_eq]
                rw [htp1 t ht]
                exact fun hh => hp hh
              rw [hfa]
              simp
          · intro p hfind
            by_cases hp : p0 = p
            · subst hp
              simp [findLevel] at hfind
            · refine List.filter_eq_nil_iff.mpr ?_
              intro t ht
              simp only [decide_eq_true_eq]
              rw [htp1 t ht]
              exact fun hh => hp hh

/-- The ladder opposite the incoming order's side, the one matching sweeps. -/
def oppLadder (b : OrderBook) (sd : Side) : Ladder :=
  match sd with
  | Side.BUY => b.asks
  | Side.SELL => b.bids

theorem add_limit_order_trades_eq (b : OrderBook) (id : Nat) (sd : Side)
    (price : Int) (qty ts : Nat) (tsf : Clock) (n : Nat) :
    (add_limit_order b id sd price qty ts tsf n).trades =
    (match_order
      { b with
        next_tok := b.next_tok + 1
        store := aset b.store b.next_tok ⟨id, sd, OrderType.LIMIT, price, qty, qty, ts⟩
        order_map := aset b.order_map id b.next_tok }
      ⟨id, sd, OrderType.LIMIT, price, qty, qty, ts⟩ tsf n).2.2.1 := by
  simp only [add_limit_order]
  split <;> rfl

theorem add_market_order_trades_eq (b : OrderBook) (id : Nat) (sd : Side)
    (qty ts : Nat) (tsf : Clock) (n : Nat) :
    (add_market_order b id sd qty ts tsf n).trades =
    (match_order
      { b with
        next_tok := b.next_tok + 1
        store := aset b.store b.next_tok ⟨id, sd, OrderType.MARKET, 0, qty, qty, ts⟩
        order_map := aset b.order_map id b.next_tok }
      ⟨id, sd, OrderType.MARKET, 0, qty, qty, ts⟩ tsf n).2.2.1 := rfl

theorem wf_opp_levels (b : OrderBook) (sd : Side) (o : OrderRec) (hwf : WF b) :
    sortedByB (cmpOf sd) (oppLadder b sd) = true ∧
    (∀ pl ∈ oppLadder b sd, ∀ tok ∈ pl.2.queue,
      tokLive (aset b.store b.next_tok o) tok ∧
      (tokRec (aset b.store b.next_tok o) tok).price = pl.1) := by
  obtain ⟨hsb, hsa, hlb, hla, _, _⟩ := hwf
  cases sd
  · refine ⟨hsa, ?_⟩
    intro pl hpl tok htok
    have h1 := (hla pl hpl).2.2.2 tok htok
    have hne : tok ≠ b.next_tok := Nat.ne_of_lt h1.1
    have heq : tokRec (aset b.store b.next_tok o) tok = tokRec b.store tok := by
      rw [tokRec, tokRec, alookup_aset_ne _ _ _ _ hne]
    constructor
    · rw [tokLive, alookup_aset_ne _ _ _ _ hne]
      exact h1.2.1
    · rw [heq]
      exact h1.2.2.2.1
  · refine ⟨hsb, ?_⟩
    intro pl hpl tok htok
    have h1 := (hlb pl hpl).2.2.2 tok htok
    have hne : tok ≠ b.next_tok := Nat.ne_of_lt h1.1
    have heq : tokRec (aset b.store b.next_tok o) tok = tokRec b.store tok := by
      rw [tokRec, tokRec, alookup_aset_ne _ _ _ _ hne]
    constructor
    · rw [tokLive, alookup_aset_ne _ _ _ _ hne]
      exact h1.2.1
    · rw [heq]
      exact h1.2.2.2.1

theorem wf_opp_ids (b : OrderBook) (sd : Side) (o : OrderRec) (hwf : WF b)
    (L : PriceLevel) (p : Int) (hf : findLevel (oppLadder b sd) p = some L) :
    L.queue.map (fun tok => (tokRec (aset b.store b.next_tok o) tok).id) =
    L.queue.map (fun tok => (tokRec b.store tok).id) := by
  obtain ⟨hsb, hsa, hlb, hla, _, _⟩ := hwf
  refine List.map_congr_left ?_
  intro tok htok
  have hlt : tok < b.next_tok := by
    cases sd
    · exact ((hla (p, L) (findLevel_mem _ _ _ hf)).2.2.2 tok htok).1
    · exact ((hlb (p, L) (findLevel_mem _ _ _ hf)).2.2.2 tok htok).1
  rw [tokRec, tokRec, alookup_aset_ne _ _ _ _ (Nat.ne_of_lt hlt)]

/-- Claim C6 (confirmed).  On a well-formed book, the trades of a single
add_limit_order or add_market_order call carry resting-side prices: every
trade price is the price of a level of the pre-call opposite ladder; for a
limit BUY at P every trade price is at most P and for a limit SELL at P at
least P; the trade prices are weakly ascending for a BUY aggressor and
weakly descending for a SELL aggressor (strictly across levels); and within
each price level the resting ids of the trades are exactly an initial
segment, in queue order, of that level's pre-call queue (FIFO). -/
theorem c6_trade_ordering (b : OrderBook) (id : Nat) (sd : Side) (price : Int)
    (qty ts : Nat) (tsf : Clock) (n : Nat)
    (hwf : WF b) (hq : 0 < qty) (hid : alookup b.order_map id = none) :
    (∀ t ∈ (add_limit_order b id sd price qty ts tsf n).trades,
      ∃ pl ∈ oppLadder b sd, t.price = pl.1) ∧
    (sd = Side.BUY → ∀ t ∈ (add_limit_order b id sd price qty ts tsf n).trades,
      t.price ≤ price) ∧
    (sd = Side.SELL → ∀ t ∈ (add_limit_order b id sd price qty ts tsf n).trades,
      price ≤ t.price) ∧
    List.Pairwise (fun t1 t2 : Trade => ladLE sd t1.price t2.price)
      (add_limit_order b id sd price qty ts tsf n).trades ∧
    (∀ p L, findLevel (oppLadder b sd) p = some L →
      ((add_limit_order b id sd price qty ts tsf n).trades.filter
        (fun t => decide (t.price = p))).map (restingId sd) =
      (L.queue.map (fun tok => (tokRec b.store tok).id)).take
        (((add_limit_order b id sd price qty ts tsf n).trades.filter
          (fun t => decide (t.price = p))).length)) ∧
    (∀ t ∈ (add_market_order b id sd qty ts tsf n).trades,
      ∃ pl ∈ oppLadder b sd, t.price = pl.1) ∧
    List.Pairwise (fun t1 t2 : Trade => ladLE sd t1.price t2.price)
      (add_market_order b id sd qty ts tsf n).trades ∧
    (∀ p L, findLevel (oppLadder b sd) p = some L →
      ((add_market_order b id sd qty ts tsf n).trades.filter
        (fun t => decide (t.price = p))).map (restingId sd) =
      (L.queue.map (fun tok => (tokRec b.store tok).id)).take
        (((add_market_order b id sd qty ts tsf n).trades.filter
          (fun t => decide (t.price = p))).length)) := by
  have hqz : qty ≠ 0 := Nat.pos_iff_ne_zero.1 hq
  have hwfl := wf_opp_levels b sd ⟨id, sd, OrderType.LIMIT, price, qty, qty, ts⟩ hwf
  have hwfm := wf_opp_levels b sd ⟨id, sd, OrderType.MARKET, 0, qty, qty, ts⟩ hwf
  cases sd with
  | BUY =>
    have hml := match_order_buy
      { b with
        next_tok := b.next_tok + 1
        store := aset b.store b.next_tok ⟨id, Side.BUY, OrderType.LIMIT, price, qty, qty, ts⟩
        order_map := aset b.order_map id b.next_tok }
      ⟨id, Side.BUY, OrderType.LIMIT, price, qty, qty, ts⟩ tsf n hqz rfl
    have hmm := match_order_buy
      { b with
        next_tok := b.next_tok + 1
        store := aset b.store b.next_tok ⟨id, Side.BUY, OrderType.MARKET, 0, qty, qty, ts⟩
        order_map := aset b.order_map id b.next_tok }
      ⟨id, Side.BUY, OrderType.MARKET, 0, qty, qty, ts⟩ tsf n hqz rfl
    simp only at hml hmm
    have hTl := add_limit_order_trades_eq b id Side.BUY price qty ts tsf n
    have hTm := add_market_order_trades_eq b id Side.BUY qty ts tsf n
    rw [hml.2.2.2.2.2.1] at hTl
    rw [hmm.2.2.2.2.2.1] at hTm
    have hlt := matchLadder_trades Side.BUY b.asks
      ⟨id, Side.BUY, OrderType.LIMIT, price, qty, qty, ts⟩
      (aset b.store b.next_tok ⟨id, Side.BUY, OrderType.LIMIT, price, qty, qty, ts⟩)
      (aset b.order_map id b.next_tok) tsf n hwfl.1 hwfl.2
    have hmt := matchLadder_trades Side.BUY b.asks
      ⟨id, Side.BUY, OrderType.MARKET, 0, qty, qty, ts⟩
      (aset b.store b.next_tok ⟨id, Side.BUY, OrderType.MARKET, 0, qty, qty, ts⟩)
      (aset b.order_map id b.next_tok) tsf n hwfm.1 hwfm.2
    rw [hTl, hTm]
    refine ⟨hlt.1, ?_, ?_, hlt.2.1, ?_, hmt.1, hmt.2.1, ?_⟩
    · intro _ t ht
      have hnc := hlt.2.2.1 (by simp) t ht
      by_contra hgt
      exact hnc (Or.inl ⟨rfl, by show price < t.price; omega⟩)
    · intro hcontra
      simp at hcontra
    · intro p L hf
      have := hlt.2.2.2.1 p L hf
      rw [wf_opp_ids b Side.BUY _ hwf L p hf] at this
      exact this
    · intro p L hf
      have := hmt.2.2.2.1 p L hf
      rw [wf_opp_ids b Side.BUY _ hwf L p hf] at this
      exact this
  | SELL =>
    have hml := match_order_sell
      { b with
        next_tok := b.next_tok + 1
        store := aset b.store b.next_tok ⟨id, Side.SELL, OrderType.LIMIT, price, qty, qty, ts⟩
        order_map := aset b.order_map id b.next_tok }
      ⟨id, Side.SELL, OrderType.LIMIT, price, qty, qty, ts⟩ tsf n hqz rfl
    have hmm := match_order_sell
      { b with
        next_tok := b.next_tok + 1
        store := aset b.store b.next_tok ⟨id, Side.SELL, OrderType.MARKET, 0, qty, qty, ts⟩
        order_map := aset b.order_map id b.next_tok }
      ⟨id, Side.SELL, OrderType.MARKET, 0, qty, qty, ts⟩ tsf n hqz rfl
    simp only at hml hmm
    have hTl := add_limit_order_trades_eq b id Side.SELL price qty ts tsf n
    have hTm := add_market_order_trades_eq b id Side.SELL qty ts tsf n
    rw [hml.2.2.2.2.2.1] at hTl
    rw [hmm.2.2.2.2.2.1] at hTm
    have hlt := matchLadder_trades Side.SELL b.bids
      ⟨id, Side.SELL, OrderType.LIMIT, price, qty, qty, ts⟩
      (aset b.store b.next_tok ⟨id, Side.SELL, OrderType.LIMIT, price, qty, qty, ts⟩)
      (aset b.order_map id b.next_tok) tsf n hwfl.1 hwfl.2
    have hmt := matchLadder_trades Side.SELL b.bids
      ⟨id, Side.SELL, OrderType.MARKET, 0, qty, qty, ts⟩
      (aset b.store b.next_tok ⟨id, Side.SELL, OrderType.MARKET, 0, qty, qty, ts⟩)
      (aset b.order_map id b.next_tok) tsf n hwfm.1 hwfm.2
    rw [hTl, hTm]
    refine ⟨hlt.1, ?_, ?_, hlt.2.1, ?_, hmt.1, hmt.2.1, ?_⟩
    · intro hcontra
      simp at hcontra
    · intro _ t ht
      have hnc := hlt.2.2.1 (by simp) t ht
      by_contra hgt
      exact hnc (Or.inr ⟨rfl, by show t.price < price; omega⟩)
    · intro p L hf
      have := hlt.2.2.2.1 p L hf
      rw [wf_opp_ids b Side.SELL _ hwf L p hf] at this
      exact this
    · intro p L hf
      have := hmt.2.2.2.1 p L hf
      rw [wf_opp_ids b Side.SELL _ hwf L p hf] at this
      exact this

/-- Witness for c6_trade_ordering at a concrete input: a crossing BUY over
two resting ask levels. -/
theorem c6_trade_ordering_witness :
    (∀ t ∈ (add_limit_order (runTrace [Op.limit 1 Side.SELL 10 5,
        Op.limit 2 Side.SELL 20 5] czero).book 3 Side.BUY 15 9 0 czero 0).trades,
      ∃ pl ∈ oppLadder (runTrace [Op.limit 1 Side.SELL 10 5,
        Op.limit 2 Side.SELL 20 5] czero).book Side.BUY, t.price = pl.1) ∧
    (∀ t ∈ (add_limit_order (runTrace [Op.limit 1 Side.SELL 10 5,
        Op.limit 2 Side.SELL 20 5] czero).book 3 Side.BUY 15 9 0 czero 0).trades,
      t.price ≤ 15) := by
  have h := c6_trade_ordering (runTrace [Op.limit 1 Side.SELL 10 5,
    Op.limit 2 Side.SELL 20 5] czero).book 3 Side.BUY 15 9 0 czero 0
    (by decide) (by decide) (by decide)
  exact ⟨h.1, h.2.1 rfl⟩

/-! Clock determinism: erasing every timestamp. -/

/-- An order record with its timestamp erased. -/
def eraseO (o : OrderRec) : OrderRec := { o with timestamp := 0 }

/-- A heap with every record's timestamp erased. -/
def eraseStore (st : Store) : Store := st.map (fun e => (e.1, eraseO e.2))

/-- The clock-independent content of a trade. -/
def eraseTrade (t : Trade) : Nat × Nat × Int × Nat :=
  (t.buy_order_id, t.sell_order_id, t.price, t.quantity)

/-- A book with every stored timestamp erased. -/
def eraseBook (b : OrderBook) : OrderBook := { b with store := eraseStore b.store }

theorem eo_rem {a b : OrderRec} (h : eraseO a = eraseO b) :
    a.remaining_quantity = b.remaining_quantity := by
  have hc := congrArg OrderRec.remaining_quantity h; exact hc

theorem eo_id {a b : OrderRec} (h : eraseO a = eraseO b) : a.id = b.id := by
  have hc := congrArg OrderRec.id h; exact hc

theorem eo_side {a b : OrderRec} (h : eraseO a = eraseO b) : a.side = b.side := by
  have hc := congrArg OrderRec.side h; exact hc

theorem eo_typ {a b : OrderRec} (h : eraseO a = eraseO b) : a.typ = b.typ := by
  have hc := congrArg OrderRec.typ h; exact hc

theorem eo_price {a b : OrderRec} (h : eraseO a = eraseO b) : a.price = b.price := by
  have hc := congrArg OrderRec.price h; exact hc

theorem eo_quantity {a b : OrderRec} (h : eraseO a = eraseO b) : a.quantity = b.quantity := by
  have hc := congrArg OrderRec.quantity h; exact hc

@[simp] theorem eraseO_reduce (o : OrderRec) (t : Nat) :
    eraseO (o.reduce_quantity t) = (eraseO o).reduce_quantity t := rfl

theorem alookup_eraseStore (st : Store) (k : Nat) :
    alookup (eraseStore st) k = (alookup st k).map eraseO := by
  induction st with
  | nil => rfl
  | cons e r ih =>
    by_cases he : e.1 = k
    · simp [eraseStore, alookup, he]
    · simpa [eraseStore, alookup, he] using ih

theorem eraseStore_aset (st : Store) (k : Nat) (v : OrderRec) :
    eraseStore (aset st k v) = aset (eraseStore st) k (eraseO v) := by
  induction st with
  | nil => rfl
  | cons e r ih =>
    by_cases he : e.1 = k
    · simp [eraseStore, aset, he]
    · simp only [eraseStore, aset, he, if_false, List.map_cons]
      exact congrArg (List.cons (e.1, eraseO e.2)) ih

theorem eraseTrade_mkTrade (sd : Side) (i1 i2 r1 r2 : OrderRec) (p1 p2 : Int)
    (q1 q2 ts1 ts2 : Nat) (hi : eraseO i1 = eraseO i2) (hr : eraseO r1 = eraseO r2)
    (hp : p1 = p2) (hq : q1 = q2) :
    eraseTrade (mkTrade sd i1 r1 p1 q1 ts1) = eraseTrade (mkTrade sd i2 r2 p2 q2 ts2) := by
  cases sd <;> simp [mkTrade, eraseTrade, eo_id hi, eo_id hr, hp, hq]

theorem matchQueue_cong (sd : Side) (q : List Nat) :
    ∀ inc1 inc2 tv cnt st1 st2 om (tsf1 tsf2 : Clock) n1 n2,
      eraseO inc1 = eraseO inc2 → eraseStore st1 = eraseStore st2 →
      eraseO (matchQueue sd inc1 q tv cnt st1 om tsf1 n1).inc =
        eraseO (matchQueue sd inc2 q tv cnt st2 om tsf2 n2).inc ∧
      (matchQueue sd inc1 q tv cnt st1 om tsf1 n1).q =
        (matchQueue sd inc2 q tv cnt st2 om tsf2 n2).q ∧
      (matchQueue sd inc1 q tv cnt st1 om tsf1 n1).tv =
        (matchQueue sd inc2 q tv cnt st2 om tsf2 n2).tv ∧
      (matchQueue sd inc1 q tv cnt st1 om tsf1 n1).cnt =
        (matchQueue sd inc2 q tv cnt st2 om tsf2 n2).cnt ∧
      eraseStore (matchQueue sd inc1 q tv cnt st1 om tsf1 n1).st =
        eraseStore (matchQueue sd inc2 q tv cnt st2 om tsf2 n2).st ∧
      (matchQueue sd inc1 q tv cnt st1 om tsf1 n1).om =
        (matchQueue sd inc2 q tv cnt st2 om tsf2 n2).om ∧
      (matchQueue sd inc1 q tv cnt st1 om tsf1 n1).trades.map eraseTrade =
        (matchQueue sd inc2 q tv cnt st2 om tsf2 n2).trades.map eraseTrade := by
  induction q with
  | nil =>
    intro inc1 inc2 tv cnt st1 st2 om tsf1 tsf2 n1 n2 hi hs
    simp [matchQueue, hi, hs]
  | cons tok rest ih =>
    intro inc1 inc2 tv cnt st1 st2 om tsf1 tsf2 n1 n2 hi hs
    have hrem : inc1.remaining_quantity = inc2.remaining_quantity := eo_rem hi
    have hlk : (alookup st1 tok).map eraseO = (alookup st2 tok).map eraseO := by
      rw [← alookup_eraseStore, ← alookup_eraseStore, hs]
    simp only [matchQueue]
    by_cases h0 : inc1.remaining_quantity = 0
    · simp [h0, ← hrem, hi, hs]
    · simp only [h0, ← hrem, if_false]
      cases h1 : alookup st1 tok with
      | none =>
        cases h2 : alookup st2 tok with
        | none => exact ih inc1 inc2 tv cnt st1 st2 om tsf1 tsf2 n1 n2 hi hs
        | some r2 => rw [h1, h2] at hlk; exact Option.noConfusion hlk
      | some r1 =>
        cases h2 : alookup st2 tok with
        | none => rw [h1, h2] at hlk; exact Option.noConfusion hlk
        | some r2 =>
          rw [h1, h2] at hlk
          have hr : eraseO r1 = eraseO r2 := by
            have hlk2 : some (eraseO r1) = some (eraseO r2) := hlk
            injection hlk2
          have hrr : r1.remaining_quantity = r2.remaining_quantity := eo_rem hr
          have htq : min inc1.remaining_quantity r1.remaining_quantity =
              min inc1.remaining_quantity r2.remaining_quantity := by rw [hrr]
          have hinc' : eraseO (inc1.reduce_quantity
              (min inc1.remaining_quantity r1.remaining_quantity)) =
              eraseO (inc2.reduce_quantity
              (min inc1.remaining_quantity r2.remaining_quantity)) := by
            rw [eraseO_reduce, eraseO_reduce, hi, htq]
          have hr' : eraseO (r1.reduce_quantity
              (min inc1.remaining_quantity r1.remaining_quantity)) =
              eraseO (r2.reduce_quantity
              (min inc1.remaining_quantity r2.remaining_quantity)) := by
            rw [eraseO_reduce, eraseO_reduce, hr, htq]
          have hst' : eraseStore (aset st1 tok (r1.reduce_quantity
              (min inc1.remaining_quantity r1.remaining_quantity))) =
              eraseStore (aset st2 tok (r2.reduce_quantity
              (min inc1.remaining_quantity r2.remaining_quantity))) := by
            rw [eraseStore_aset, eraseStore_aset, hs, hr']
          have htrade := eraseTrade_mkTrade sd inc1 inc2 r1 r2 r1.price r2.price
            (min inc1.remaining_quantity r1.remaining_quantity)
            (min inc1.remaining_quantity r2.remaining_quantity) (tsf1 n1) (tsf2 n2)
            hi hr (eo_price hr) htq
          by_cases hz : r1.remaining_quantity - min inc1.remaining_quantity r1.remaining_quantity = 0
          · have hz2 : r2.remaining_quantity -
                min inc1.remaining_quantity r2.remaining_quantity = 0 := by
              rw [← hrr]; exact hz
            simp only [reduce_quantity_rem, hz, hz2, if_true]
            rw [eo_id hr]
            have hrec := ih
              (inc1.reduce_quantity (min inc1.remaining_quantity r1.remaining_quantity))
              (inc2.reduce_quantity (min inc1.remaining_quantity r2.remaining_quantity))
              (u64sub tv 0) (cnt - 1)
              (aset st1 tok (r1.reduce_quantity (min inc1.remaining_quantity r1.remaining_quantity)))
              (aset st2 tok (r2.reduce_quantity (min inc1.remaining_quantity r2.remaining_quantity)))
              (aerase om r2.id) tsf1 tsf2 (n1 + 1) (n2 + 1) hinc' hst'
            refine ⟨hrec.1, hrec.2.1, hrec.2.2.1, hrec.2.2.2.1, hrec.2.2.2.2.1,
              hrec.2.2.2.2.2.1, ?_⟩
            rw [List.map_cons, List.map_cons, htrade, hrec.2.2.2.2.2.2]
          · have hz2 : ¬ r2.remaining_quantity -
                min inc1.remaining_quantity r2.remaining_quantity = 0 := by
              rw [← hrr]; exact hz
            simp only [reduce_quantity_rem, hz, hz2, if_false]
            refine ⟨hinc', trivial, trivial, trivial, hst', trivial, ?_⟩
            rw [List.map_cons, List.map_cons, htrade]

theorem matchLadder_cong (sd : Side) (ladder : Ladder) :
    ∀ inc1 inc2 st1 st2 om (tsf1 tsf2 : Clock) n1 n2,
      eraseO inc1 = eraseO inc2 → eraseStore st1 = eraseStore st2 →
      eraseO (matchLadder sd inc1 ladder st1 om tsf1 n1).inc =
        eraseO (matchLadder sd inc2 ladder st2 om tsf2 n2).inc ∧
      (matchLadder sd inc1 ladder st1 om tsf1 n1).ladder =
        (matchLadder sd inc2 ladder st2 om tsf2 n2).ladder ∧
      eraseStore (matchLadder sd inc1 ladder st1 om tsf1 n1).st =
        eraseStore (matchLadder sd inc2 ladder st2 om tsf2 n2).st ∧
      (matchLadder sd inc1 ladder st1 om tsf1 n1).om =
        (matchLadder sd inc2 ladder st2 om tsf2 n2).om ∧
      (matchLadder sd inc1 ladder st1 om tsf1 n1).trades.map eraseTrade =
        (matchLadder sd inc2 ladder st2 om tsf2 n2).trades.map eraseTrade := by
  induction ladder with
  | nil =>
    intro inc1 inc2 st1 st2 om tsf1 tsf2 n1 n2 hi hs
    simp [matchLadder, hi, hs]
  | cons pl rest ih =>
    intro inc1 inc2 st1 st2 om tsf1 tsf2 n1 n2 hi hs
    obtain ⟨p, L⟩ := pl
    have hrem : inc1.remaining_quantity = inc2.remaining_quantity := eo_rem hi
    have htyp : inc1.typ = inc2.typ := eo_typ hi
    have hpr : inc1.price = inc2.price := eo_price hi
    simp only [matchLadder]
    by_cases h0 : inc1.remaining_quantity = 0
    · simp [h0, ← hrem, hi, hs]
    · simp only [h0, ← hrem, ← htyp, ← hpr, if_false]
      by_cases hc : inc1.typ ≠ OrderType.MARKET ∧ crossStop sd inc1.price p
      · simp [hc, hi, hs]
      · simp only [if_neg hc]
        have hmq := matchQueue_cong sd L.queue inc1 inc2 L.total_volume L.order_count
          st1 st2 om tsf1 tsf2 n1 n2 hi hs
        by_cases hq : (matchQueue sd inc1 L.queue L.total_volume L.order_count st1 om tsf1 n1).q = []
        · have hq2 : (matchQueue sd inc2 L.queue L.total_volume L.order_count st2 om tsf2 n2).q = [] := by
            rw [← hmq.2.1]; exact hq
          simp only [hq, hq2, if_true]
          rw [← hmq.2.2.2.2.2.1]
          have hrec := ih
            (matchQueue sd inc1 L.queue L.total_volume L.order_count st1 om tsf1 n1).inc
            (matchQueue sd inc2 L.queue L.total_volume L.order_count st2 om tsf2 n2).inc
            (matchQueue sd inc1 L.queue L.total_volume L.order_count st1 om tsf1 n1).st
            (matchQueue sd inc2 L.queue L.total_volume L.order_count st2 om tsf2 n2).st
            (matchQueue sd inc1 L.queue L.total_volume L.order_count st1 om tsf1 n1).om
            tsf1 tsf2
            (matchQueue sd inc1 L.queue L.total_volume L.order_count st1 om tsf1 n1).n
            (matchQueue sd inc2 L.queue L.total_volume L.order_count st2 om tsf2 n2).n
            hmq.1 hmq.2.2.2.2.1
          refine ⟨hrec.1, hrec.2.1, hrec.2.2.1, hrec.2.2.2.1, ?_⟩
          rw [List.map_append, List.map_append, hmq.2.2.2.2.2.2, hrec.2.2.2.2]
        · have hq2 : ¬ (matchQueue sd inc2 L.queue L.total_volume L.order_count st2 om tsf2 n2).q = [] := by
            rw [← hmq.2.1]; exact hq
          simp only [hq, hq2, if_false]
          refine ⟨hmq.1, ?_, hmq.2.2.2.2.1, hmq.2.2.2.2.2.1, hmq.2.2.2.2.2.2⟩
          rw [hmq.2.1, hmq.2.2.1, hmq.2.2.2.1]

theorem eb_next {b1 b2 : OrderBook} (h : eraseBook b1 = eraseBook b2) :
    b1.next_tok = b2.next_tok := by
  have hc := congrArg OrderBook.next_tok h; exact hc

theorem eb_store {b1 b2 : OrderBook} (h : eraseBook b1 = eraseBook b2) :
    eraseStore b1.store = eraseStore b2.store := by
  have hc := congrArg OrderBook.store h; exact hc

theorem eb_bids {b1 b2 : OrderBook} (h : eraseBook b1 = eraseBook b2) :
    b1.bids = b2.bids := by
  have hc := congrArg OrderBook.bids h; exact hc

theorem eb_asks {b1 b2 : OrderBook} (h : eraseBook b1 = eraseBook b2) :
    b1.asks = b2.asks := by
  have hc := congrArg OrderBook.asks h; exact hc

theorem eb_om {b1 b2 : OrderBook} (h : eraseBook b1 = eraseBook b2) :
    b1.order_map = b2.order_map := by
  have hc := congrArg OrderBook.order_map h; exact hc

theorem eb_adds {b1 b2 : OrderBook} (h : eraseBook b1 = eraseBook b2) :
    b1.m_adds = b2.m_adds := by
  have hc := congrArg OrderBook.m_adds h; exact hc

theorem eb_cancels {b1 b2 : OrderBook} (h : eraseBook b1 = eraseBook b2) :
    b1.m_cancels = b2.m_cancels := by
  have hc := congrArg OrderBook.m_cancels h; exact hc

theorem eb_matches {b1 b2 : OrderBook} (h : eraseBook b1 = eraseBook b2) :
    b1.m_matches = b2.m_matches := by
  have hc := congrArg OrderBook.m_matches h; exact hc

theorem match_order_cong (b1 b2 : OrderBook) (inc1 inc2 : OrderRec)
    (tsf1 tsf2 : Clock) (n1 n2 : Nat)
    (hb : eraseBook b1 = eraseBook b2) (hi : eraseO inc1 = eraseO inc2) :
    eraseO (match_order b1 inc1 tsf1 n1).1 = eraseO (match_order b2 inc2 tsf2 n2).1 ∧
    eraseBook (match_order b1 inc1 tsf1 n1).2.1 =
      eraseBook (match_order b2 inc2 tsf2 n2).2.1 ∧
    (match_order b1 inc1 tsf1 n1).2.2.1.map eraseTrade =
      (match_order b2 inc2 tsf2 n2).2.2.1.map eraseTrade := by
  have hrem : inc1.remaining_quantity = inc2.remaining_quantity := eo_rem hi
  have hsd : inc1.side = inc2.side := eo_side hi
  unfold match_order
  by_cases h0 : inc1.remaining_quantity = 0
  · simp [h0, ← hrem, hi, hb]
  · simp only [h0, ← hrem, ← hsd, if_false]
    cases hside : inc1.side
    · simp only [hside]
      rw [← eb_asks hb, ← eb_om hb]
      have hml := matchLadder_cong Side.BUY b1.asks inc1 inc2 b1.store b2.store
        b1.order_map tsf1 tsf2 n1 n2 hi (eb_store hb)
      have hcond : ((matchLadder Side.BUY inc1 b1.asks b1.store b1.order_map tsf1 n1).inc.remaining_quantity <
          (matchLadder Side.BUY inc1 b1.asks b1.store b1.order_map tsf1 n1).inc.quantity) ↔
          ((matchLadder Side.BUY inc2 b1.asks b2.store b1.order_map tsf2 n2).inc.remaining_quantity <
          (matchLadder Side.BUY inc2 b1.asks b2.store b1.order_map tsf2 n2).inc.quantity) := by
        rw [eo_rem hml.1, eo_quantity hml.1]
      by_cases hlt : (matchLadder Side.BUY inc1 b1.asks b1.store b1.order_map tsf1 n1).inc.remaining_quantity <
          (matchLadder Side.BUY inc1 b1.asks b1.store b1.order_map tsf1 n1).inc.quantity
      · have hlt2 := hcond.1 hlt
        simp only [hlt, hlt2, if_true]
        refine ⟨hml.1, ?_, hml.2.2.2.2⟩
        simp [eraseBook, eb_next hb, eb_bids hb, hml.2.1, hml.2.2.1, hml.2.2.2.1,
          eb_adds hb, eb_cancels hb, eb_matches hb]
      · have hlt2 : ¬ ((matchLadder Side.BUY inc2 b1.asks b2.store b1.order_map tsf2 n2).inc.remaining_quantity <
            (matchLadder Side.BUY inc2 b1.asks b2.store b1.order_map tsf2 n2).inc.quantity) :=
          fun hh => hlt (hcond.2 hh)
        simp only [hlt, hlt2, if_false]
        refine ⟨hml.1, ?_, hml.2.2.2.2⟩
        simp [eraseBook, eb_next hb, eb_bids hb, hml.2.1, hml.2.2.1, hml.2.2.2.1,
          eb_adds hb, eb_cancels hb, eb_matches hb]
    · simp only [hside]
      rw [← eb_bids hb, ← eb_om hb]
      have hml := matchLadder_cong Side.SELL b1.bids inc1 inc2 b1.store b2.store
        b1.order_map tsf1 tsf2 n1 n2 hi (eb_store hb)
      have hcond : ((matchLadder Side.SELL inc1 b1.bids b1.store b1.order_map tsf1 n1).inc.remaining_quantity <
          (matchLadder Side.SELL inc1 b1.bids b1.store b1.order_map tsf1 n1).inc.quantity) ↔
          ((matchLadder Side.SELL inc2 b1.bids b2.store b1.order_map tsf2 n2).inc.remaining_quantity <
          (matchLadder Side.SELL inc2 b1.bids b2.store b1.order_map tsf2 n2).inc.quantity) := by
        rw [eo_rem hml.1, eo_quantity hml.1]
      by_cases hlt : (matchLadder Side.SELL inc1 b1.bids b1.store b1.order_map tsf1 n1).inc.remaining_quantity <
          (matchLadder Side.SELL inc1 b1.bids b1.store b1.order_map tsf1 n1).inc.quantity
      · have hlt2 := hcond.1 hlt
        simp only [hlt, hlt2, if_true]
        refine ⟨hml.1, ?_, hml.2.2.2.2⟩
        simp [eraseBook, eb_next hb, eb_asks hb, hml.2.1, hml.2.2.1, hml.2.2.2.1,
          eb_adds hb, eb_cancels hb, eb_matches hb]
      · have hlt2 : ¬ ((matchLadder Side.SELL inc2 b1.bids b2.store b1.order_map tsf2 n2).inc.remaining_quantity <
            (matchLadder Side.SELL inc2 b1.bids b2.store b1.order_map tsf2 n2).inc.quantity) :=
          fun hh => hlt (hcond.2 hh)
        simp only [hlt, hlt2, if_false]
        refine ⟨hml.1, ?_, hml.2.2.2.2⟩
        simp [eraseBook, eb_next hb, eb_asks hb, hml.2.1, hml.2.2.1, hml.2.2.2.1,
          eb_adds hb, eb_cancels hb, eb_matches hb]

theorem add_limit_order_cong (b1 b2 : OrderBook) (id : Nat) (sd : Side)
    (price : Int) (qty ts1 ts2 : Nat) (tsf1 tsf2 : Clock) (n1 n2 : Nat)
    (hb : eraseBook b1 = eraseBook b2) :
    (add_limit_order b1 id sd price qty ts1 tsf1 n1).ok =
      (add_limit_order b2 id sd price qty ts2 tsf2 n2).ok ∧
    eraseBook (add_limit_order b1 id sd price qty ts1 tsf1 n1).book =
      eraseBook (add_limit_order b2 id sd price qty ts2 tsf2 n2).book ∧
    (add_limit_order b1 id sd price qty ts1 tsf1 n1).trades.map eraseTrade =
      (add_limit_order b2 id sd price qty ts2 tsf2 n2).trades.map eraseTrade := by
  simp only [add_limit_order]
  rw [eb_next hb]
  have ho : eraseO ⟨id, sd, OrderType.LIMIT, price, qty, qty, ts1⟩ =
      eraseO ⟨id, sd, OrderType.LIMIT, price, qty, qty, ts2⟩ := rfl
  have hb1 : eraseBook { b1 with
      next_tok := b2.next_tok + 1
      store := aset b1.store b2.next_tok ⟨id, sd, OrderType.LIMIT, price, qty, qty, ts1⟩
      order_map := aset b1.order_map id b2.next_tok } = eraseBook { b2 with
      next_tok := b2.next_tok + 1
      store := aset b2.store b2.next_tok ⟨id, sd, OrderType.LIMIT, price, qty, qty, ts2⟩
      order_map := aset b2.order_map id b2.next_tok } := by
    simp [eraseBook, eraseStore_aset, eb_store hb, eb_om hb, eb_bids hb,
      eb_asks hb, eb_adds hb, eb_cancels hb, eb_matches hb, eraseO]
  have hmo := match_order_cong _ _ _ _ tsf1 tsf2 n1 n2 hb1 ho
  have hrem' := eo_rem hmo.1
  by_cases hz : (match_order { b1 with
      next_tok := b2.next_tok + 1
      store := aset b1.store b2.next_tok ⟨id, sd, OrderType.LIMIT, price, qty, qty, ts1⟩
      order_map := aset b1.order_map id b2.next_tok }
      ⟨id, sd, OrderType.LIMIT, price, qty, qty, ts1⟩ tsf1 n1).1.remaining_quantity = 0
  · have hz2 : (match_order { b2 with
        next_tok := b2.next_tok + 1
        store := aset b2.store b2.next_tok ⟨id, sd, OrderType.LIMIT, price, qty, qty, ts2⟩
        order_map := aset b2.order_map id b2.next_tok }
        ⟨id, sd, OrderType.LIMIT, price, qty, qty, ts2⟩ tsf2 n2).1.remaining_quantity = 0 := by
      rw [← hrem']; exact hz
    simp only [hz, hz2, if_true]
    refine ⟨trivial, ?_, hmo.2.2⟩
    simp [eraseBook, eraseStore_aset, hmo.1, eb_store hmo.2.1, eb_next hmo.2.1,
      eb_om hmo.2.1, eb_bids hmo.2.1, eb_asks hmo.2.1,
      eb_adds hmo.2.1, eb_cancels hmo.2.1, eb_matches hmo.2.1]
  · have hz2 : ¬ (match_order { b2 with
        next_tok := b2.next_tok + 1
        store := aset b2.store b2.next_tok ⟨id, sd, OrderType.LIMIT, price, qty, qty, ts2⟩
        order_map := aset b2.order_map id b2.next_tok }
        ⟨id, sd, OrderType.LIMIT, price, qty, qty, ts2⟩ tsf2 n2).1.remaining_quantity = 0 := by
      rw [← hrem']; exact hz
    simp only [hz, hz2, if_false]
    refine ⟨trivial, ?_, hmo.2.2⟩
    cases sd <;>
      simp [eraseBook, eraseStore_aset, hmo.1, hrem', eb_store hmo.2.1, eb_next hmo.2.1,
        eb_om hmo.2.1, eb_bids hmo.2.1, eb_asks hmo.2.1,
        eb_adds hmo.2.1, eb_cancels hmo.2.1, eb_matches hmo.2.1]

theorem add_market_order_cong (b1 b2 : OrderBook) (id : Nat) (sd : Side)
    (qty ts1 ts2 : Nat) (tsf1 tsf2 : Clock) (n1 n2 : Nat)
    (hb : eraseBook b1 = eraseBook b2) :
    (add_market_order b1 id sd qty ts1 tsf1 n1).filled =
      (add_market_order b2 id sd qty ts2 tsf2 n2).filled ∧
    eraseBook (add_market_order b1 id sd qty ts1 tsf1 n1).book =
      eraseBook (add_market_order b2 id sd qty ts2 tsf2 n2).book ∧
    (add_market_order b1 id sd qty ts1 tsf1 n1).trades.map eraseTrade =
      (add_market_order b2 id sd qty ts2 tsf2 n2).trades.map eraseTrade := by
  simp only [add_market_order]
  rw [eb_next hb]
  have ho : eraseO ⟨id, sd, OrderType.MARKET, 0, qty, qty, ts1⟩ =
      eraseO ⟨id, sd, OrderType.MARKET, 0, qty, qty, ts2⟩ := rfl
  have hb1 : eraseBook { b1 with
      next_tok := b2.next_tok + 1
      store := aset b1.store b2.next_tok ⟨id, sd, OrderType.MARKET, 0, qty, qty, ts1⟩
      order_map := aset b1.order_map id b2.next_tok } = eraseBook { b2 with
      next_tok := b2.next_tok + 1
      store := aset b2.store b2.next_tok ⟨id, sd, OrderType.MARKET, 0, qty, qty, ts2⟩
      order_map := aset b2.order_map id b2.next_tok } := by
    simp [eraseBook, eraseStore_aset, eb_store hb, eb_om hb, eb_bids hb,
      eb_asks hb, eb_adds hb, eb_cancels hb, eb_matches hb, eraseO]
  have hmo := match_order_cong _ _ _ _ tsf1 tsf2 n1 n2 hb1 ho
  have hrem' := eo_rem hmo.1
  refine ⟨by rw [hrem'], ?_, hmo.2.2⟩
  simp [eraseBook, eraseStore_aset, hmo.1, eb_store hmo.2.1, eb_next hmo.2.1,
    eb_om hmo.2.1, eb_bids hmo.2.1, eb_asks hmo.2.1,
    eb_adds hmo.2.1, eb_cancels hmo.2.1, eb_matches hmo.2.1]

theorem remove_order_internal_cong (b1 b2 : OrderBook) (tok : Nat) (r1 r2 : OrderRec)
    (hb : eraseBook b1 = eraseBook b2) (hr : eraseO r1 = eraseO r2) :
    eraseBook (remove_order_internal b1 tok r1) =
      eraseBook (remove_order_internal b2 tok r2) := by
  unfold remove_order_internal
  rw [← eo_side hr, ← eo_price hr, ← eo_rem hr, ← eo_id hr,
    ← eb_bids hb, ← eb_asks hb, ← eb_om hb]
  cases hside : r1.side <;>
    simp [hside, eraseBook, eb_next hb, eb_store hb, eb_adds hb,
      eb_cancels hb, eb_matches hb]

theorem cancel_order_cong (b1 b2 : OrderBook) (id : Nat)
    (hb : eraseBook b1 = eraseBook b2) :
    (cancel_order b1 id).ok = (cancel_order b2 id).ok ∧
    eraseBook (cancel_order b1 id).book = eraseBook (cancel_order b2 id).book := by
  have hom := eb_om hb
  cases hm : alookup b1.order_map id with
  | none =>
    have hm2 : alookup b2.order_map id = none := by rw [← hom]; exact hm
    simp only [cancel_order, hm, hm2]
    exact ⟨trivial, hb⟩
  | some tok =>
    have hm2 : alookup b2.order_map id = some tok := by rw [← hom]; exact hm
    have hlk : (alookup b1.store tok).map eraseO = (alookup b2.store tok).map eraseO := by
      rw [← alookup_eraseStore, ← alookup_eraseStore, eb_store hb]
    cases h1 : alookup b1.store tok with
    | none =>
      cases h2 : alookup b2.store tok with
      | none =>
        simp only [cancel_order, hm, hm2, h1, h2]
        exact ⟨trivial, hb⟩
      | some r2 => rw [h1, h2] at hlk; exact Option.noConfusion hlk
    | some r1 =>
      cases h2 : alookup b2.store tok with
      | none => rw [h1, h2] at hlk; exact Option.noConfusion hlk
      | some r2 =>
        rw [h1, h2] at hlk
        have hr : eraseO r1 = eraseO r2 := by
          have hlk2 : some (eraseO r1) = some (eraseO r2) := hlk
          injection hlk2
        have hri := remove_order_internal_cong b1 b2 tok r1 r2 hb hr
        simp only [cancel_order, hm, hm2, h1, h2]
        refine ⟨trivial, ?_⟩
        simp [eraseBook, eb_next hri, eb_store hri, eb_bids hri, eb_asks hri,
          eb_om hri, eb_adds hri, eb_cancels hri, eb_matches hri]

theorem applyOp_cong (b1 b2 : OrderBook) (c1 c2 : Clock) (cur1 cur2 : Nat) (op : Op)
    (hb : eraseBook b1 = eraseBook b2) :
    (applyOp b1 c1 cur1 op).ret = (applyOp b2 c2 cur2 op).ret ∧
    eraseBook (applyOp b1 c1 cur1 op).book = eraseBook (applyOp b2 c2 cur2 op).book ∧
    (applyOp b1 c1 cur1 op).trades.map eraseTrade =
      (applyOp b2 c2 cur2 op).trades.map eraseTrade := by
  cases op with
  | limit id sd p q =>
    have h := add_limit_order_cong b1 b2 id sd p q (c1 cur1) (c2 cur2)
      (fun k => c1 (cur1 + 1 + k)) (fun k => c2 (cur2 + 1 + k)) 0 0 hb
    exact ⟨congrArg Ret.rbool h.1, h.2.1, h.2.2⟩
  | market id sd q =>
    have h := add_market_order_cong b1 b2 id sd q (c1 cur1) (c2 cur2)
      (fun k => c1 (cur1 + 1 + k)) (fun k => c2 (cur2 + 1 + k)) 0 0 hb
    exact ⟨congrArg Ret.rqty h.1, h.2.1, h.2.2⟩
  | cancel id =>
    have h := cancel_order_cong b1 b2 id hb
    exact ⟨congrArg Ret.rbool h.1, h.2, rfl⟩

theorem runFrom_cong (ops : List Op) :
    ∀ b1 b2 (c1 c2 : Clock) cur1 cur2, eraseBook b1 = eraseBook b2 →
      (runFrom b1 c1 cur1 ops).rets = (runFrom b2 c2 cur2 ops).rets ∧
      eraseBook (runFrom b1 c1 cur1 ops).book = eraseBook (runFrom b2 c2 cur2 ops).book ∧
      (runFrom b1 c1 cur1 ops).trades.map eraseTrade =
        (runFrom b2 c2 cur2 ops).trades.map eraseTrade := by
  induction ops with
  | nil => intro b1 b2 c1 c2 cur1 cur2 hb; exact ⟨rfl, hb, rfl⟩
  | cons op rest ih =>
    intro b1 b2 c1 c2 cur1 cur2 hb
    have hstep := applyOp_cong b1 b2 c1 c2 cur1 cur2 op hb
    have hrec := ih (applyOp b1 c1 cur1 op).book (applyOp b2 c2 cur2 op).book c1 c2
      (applyOp b1 c1 cur1 op).cur (applyOp b2 c2 cur2 op).cur hstep.2.1
    refine ⟨?_, hrec.2.1, ?_⟩
    · show (applyOp b1 c1 cur1 op).ret :: (runFrom _ c1 _ rest).rets =
        (applyOp b2 c2 cur2 op).ret :: (runFrom _ c2 _ rest).rets
      rw [hstep.1, hrec.1]
    · show ((applyOp b1 c1 cur1 op).trades ++ (runFrom _ c1 _ rest).trades).map eraseTrade =
        ((applyOp b2 c2 cur2 op).trades ++ (runFrom _ c2 _ rest).trades).map eraseTrade
      rw [List.map_append, List.map_append, hstep.2.2, hrec.2.2]

/-- Claim C10 (confirmed).  The engine is deterministic with respect to
clocks: for any fixed sequence of public operations, two runs that draw
their timestamps from arbitrary (possibly different) clock streams return
the same sequence of values and emit the same sequence of trade tuples
(buy_order_id, sell_order_id, price, quantity) — matching reads prices,
remaining quantities and queue position, never a timestamp. -/
theorem c10_clock_determinism (ops : List Op) (c1 c2 : Clock) :
    (runTrace ops c1).rets = (runTrace ops c2).rets ∧
    (runTrace ops c1).trades.map eraseTrade = (runTrace ops c2).trades.map eraseTrade := by
  have h := runFrom_cong ops book0 book0 c1 c2 0 0 rfl
  exact ⟨h.1, h.2.2⟩
